import Mathlib

/-!
Ring-buffer deque (`deque.go`)

A shallow embedding of the Go type `Deque` and of its methods, followed by the
properties proved about them.

Modelling conventions.

* A value of Go type `interface{}` is an `Option α`; `none` is Go's `nil`.
* The slice `buf` is a `List (Option α)`; every slice of the program comes
  straight from `make`, so its capacity equals its length.
* Go's `int` is modelled by `Int`.  The cursors, the count and the operands
  built from them stay between minus and twice the buffer length, which the
  Go run-time keeps far below 2^62, so no operation on them wraps and their
  arithmetic is exact.
  The two machine words chosen by the caller are wrapped to 64 bits
  explicitly: the shift `1 << minCapacityExp` of `SetMinCapacity` (`shlOne`)
  and the negation of a `Rotate` argument (`negInt`).  The shifts `count<<1`
  and `count<<2` are the products by 2 and by 4.
* `make` panics, as in Go, on a length that is negative or above the limit of
  the run-time (`maxSliceLen`, 2^44 slots of an interface value on a 64-bit
  platform): that is where a minimum capacity chosen through `SetMinCapacity`
  can make the first allocation panic.  Lists have no bound in the model, so
  a length of at most twice the slots the program already holds, which is
  below that limit on every machine able to hold them, is accepted whatever
  its size.  Running out of memory depends on the machine and ends the
  program, not the call; it is not modelled.
* `x & y` on `int` is `Int.land x y` (two's complement).
* A call either returns (`Except.ok`) or stops with a `Fault`: one of the five
  explicit `panic` calls of the source, a run-time panic of Go (index or slice
  bound out of range, length out of range passed to `make`), or a loop that
  does not end.  A method that assigns to its receiver reports, with the fault, the
  receiver as the panic leaves it (`Outcome`).
-/

set_option autoImplicit false

namespace deque

/-- Ways in which a call can end without returning. -/
inductive Fault where
  /-- The panic "deque: PopFront() called on empty queue". -/
  | popFrontEmpty
  /-- The panic "deque: PopBack() called on empty queue". -/
  | popBackEmpty
  /-- The panic "deque: Front() called when empty". -/
  | frontEmpty
  /-- The panic "deque: Back() called when empty". -/
  | backEmpty
  /-- The panic "deque: At() called with index out of range". -/
  | atRange
  /-- A run-time panic of Go: index or slice bound out of range, or a length
  out of range given to make. -/
  | runtime
  /-- The loop of Clear never reaches its exit condition. -/
  | diverge
  deriving DecidableEq, Repr

/-- The constant minCapacity of the source. -/
def minCapacity : Int := 16

/-- The struct Deque of the source, field by field. -/
structure Deque (α : Type) where
  buf : List (Option α)
  head : Int
  tail : Int
  count : Int
  minCap : Int
  deriving DecidableEq, Repr

section Primitives

variable {α : Type}

/-- The zero value of the struct: what a freshly declared Deque holds. -/
def zeroValue : Deque α := ⟨[], 0, 0, 0, 0⟩

/-- The expression len(q.buf). -/
def Deque.bufLen (q : Deque α) : Int := (q.buf.length : Int)

/-- Index expression b[i] used as a value: panics outside 0 ≤ i < len(b). -/
def index (b : List (Option α)) (i : Int) : Except Fault (Option α) :=
  if 0 ≤ i ∧ i < (b.length : Int) then .ok (b.getD i.toNat none) else .error .runtime

/-- Assignment b[i] = v: panics outside 0 ≤ i < len(b). -/
def assign (b : List (Option α)) (i : Int) (v : Option α) : Except Fault (List (Option α)) :=
  if 0 ≤ i ∧ i < (b.length : Int) then .ok (b.set i.toNat v) else .error .runtime

/-- Largest length that make accepts for a slice of interface values on a
64-bit platform: the allocation limit of the run-time, 2^48 bytes, over the 16
bytes of an interface value. -/
def maxSliceLen : Int := 2 ^ 44

/-- The call make([]interface{}, n) in a program that holds a slice of held
slots: n slots holding nil.  It panics (makeslice: len out of range) when n is
negative or above maxSliceLen.  A length of at most twice the slots held is
below that limit on every machine able to hold them (2^43 slots of 16 bytes
fill the user address space), and is accepted here also for the longer lists
of the model. -/
def make (held : Nat) (n : Int) : Except Fault (List (Option α)) :=
  if 0 ≤ n ∧ (n ≤ maxSliceLen ∨ n ≤ 2 * (held : Int)) then
    .ok (List.replicate n.toNat none)
  else .error .runtime

/-- Slice expression b[lo:hi]: panics unless 0 ≤ lo ≤ hi ≤ cap(b) = len(b). -/
def slice (b : List (Option α)) (lo hi : Int) : Except Fault (List (Option α)) :=
  if 0 ≤ lo ∧ lo ≤ hi ∧ hi ≤ (b.length : Int) then
    .ok ((b.drop lo.toNat).take (hi - lo).toNat)
  else .error .runtime

/-- The builtin copy(dst, src): overwrites the first min(len(dst), len(src))
slots of dst and returns that number together with the new content of dst. -/
def copy (dst src : List (Option α)) : List (Option α) × Int :=
  let n := min dst.length src.length
  (src.take n ++ dst.drop n, (n : Int))

/-- Signed 64-bit wrap-around of a mathematical integer. -/
def wrapInt (x : Int) : Int := (x + 2 ^ 63) % 2 ^ 64 - 2 ^ 63

/-- The shift 1 << e at type int, for an unsigned shift count e. -/
def shlOne (e : Nat) : Int := wrapInt (2 ^ e)

/-- Unary minus at type int. -/
def negInt (n : Int) : Int := wrapInt (-n)

/-- The least value of type int. -/
def minInt : Int := -(2 ^ 63)

/-- The greatest value of type int. -/
def maxInt : Int := 2 ^ 63 - 1

end Primitives

section Methods

variable {α : Type}

/-- Result of a method that assigns to the receiver: the returned value, or
the fault together with the receiver as the panic leaves it. -/
abbrev Outcome (α β : Type) := Except (Fault × Deque α) β

/-- A step of a method running on receiver q: when the step panics, q is the
state that the call leaves behind. -/
def onPanic {β : Type} (q : Deque α) (r : Except Fault β) : Outcome α β :=
  match r with
  | .ok b => .ok b
  | .error f => .error (f, q)

/-- Method Len. -/
def Deque.Len (q : Deque α) : Int := q.count

/-- Method prev: (i - 1) & (len(q.buf) - 1). -/
def Deque.prev (q : Deque α) (i : Int) : Int := Int.land (i - 1) (q.bufLen - 1)

/-- Method next: (i + 1) & (len(q.buf) - 1). -/
def Deque.next (q : Deque α) (i : Int) : Int := Int.land (i + 1) (q.bufLen - 1)

/-- Method resize: a new buffer of count<<1 slots receives the live range,
in one span when tail > head and in two spans otherwise. -/
def Deque.resize (q : Deque α) : Outcome α (Deque α) := do
  let newBuf ← onPanic q (make q.buf.length (q.count * 2))
  let newBuf ←
    if q.tail > q.head then do
      let s ← onPanic q (slice q.buf q.head q.tail)
      pure (copy newBuf s).1
    else do
      let s₁ ← onPanic q (slice q.buf q.head q.bufLen)
      let (newBuf, n) := copy newBuf s₁
      let d ← onPanic q (slice newBuf n (newBuf.length : Int))
      let s₂ ← onPanic q (slice q.buf 0 q.tail)
      pure (newBuf.take n.toNat ++ (copy d s₂).1)
  pure { q with head := 0, tail := q.count, buf := newBuf }

/-- Method growIfFull. -/
def Deque.growIfFull (q : Deque α) : Outcome α (Deque α) :=
  if q.bufLen = 0 then do
    let q := if q.minCap = 0 then { q with minCap := minCapacity } else q
    let b ← onPanic q (make q.buf.length q.minCap)
    pure { q with buf := b }
  else if q.count = q.bufLen then q.resize
  else pure q

/-- Method shrinkIfExcess: len(q.buf) > q.minCap && (q.count<<2) == len(q.buf). -/
def Deque.shrinkIfExcess (q : Deque α) : Outcome α (Deque α) :=
  if q.bufLen > q.minCap ∧ q.count * 4 = q.bufLen then q.resize else pure q

/-- Method PushBack. -/
def Deque.PushBack (q : Deque α) (elem : Option α) : Outcome α (Deque α) := do
  let q ← q.growIfFull
  let b ← onPanic q (assign q.buf q.tail elem)
  let q := { q with buf := b }
  let q := { q with tail := q.next q.tail }
  pure { q with count := q.count + 1 }

/-- Method PushFront. -/
def Deque.PushFront (q : Deque α) (elem : Option α) : Outcome α (Deque α) := do
  let q ← q.growIfFull
  let q := { q with head := q.prev q.head }
  let b ← onPanic q (assign q.buf q.head elem)
  let q := { q with buf := b }
  pure { q with count := q.count + 1 }

/-- Method PopFront: the returned element and the deque after the call. -/
def Deque.PopFront (q : Deque α) : Outcome α (Option α × Deque α) :=
  if q.count ≤ 0 then .error (.popFrontEmpty, q)
  else do
    let ret ← onPanic q (index q.buf q.head)
    let b ← onPanic q (assign q.buf q.head none)
    let q := { q with buf := b }
    let q := { q with head := q.next q.head }
    let q := { q with count := q.count - 1 }
    let q ← q.shrinkIfExcess
    pure (ret, q)

/-- Method PopBack: the returned element and the deque after the call. -/
def Deque.PopBack (q : Deque α) : Outcome α (Option α × Deque α) :=
  if q.count ≤ 0 then .error (.popBackEmpty, q)
  else do
    let q := { q with tail := q.prev q.tail }
    let ret ← onPanic q (index q.buf q.tail)
    let b ← onPanic q (assign q.buf q.tail none)
    let q := { q with buf := b }
    let q := { q with count := q.count - 1 }
    let q ← q.shrinkIfExcess
    pure (ret, q)

/-- Method Front.  It assigns to nothing, so it is a function of the receiver. -/
def Deque.Front (q : Deque α) : Except Fault (Option α) :=
  if q.count ≤ 0 then .error .frontEmpty else index q.buf q.head

/-- Method Back.  It assigns to nothing, so it is a function of the receiver. -/
def Deque.Back (q : Deque α) : Except Fault (Option α) :=
  if q.count ≤ 0 then .error .backEmpty else index q.buf (q.prev q.tail)

/-- Method At.  It assigns to nothing, so it is a function of the receiver. -/
def Deque.At (q : Deque α) (i : Int) : Except Fault (Option α) :=
  if i < 0 ∨ i ≥ q.count then .error .atRange
  else index q.buf (Int.land (q.head + i) (q.bufLen - 1))

/-- The loop of Clear, for h from head while h != tail.  The first argument
bounds the number of iterations. -/
def clearLoop (modBits : Int) : Nat → Int → Deque α → Outcome α (Deque α)
  | 0, h, q => if h ≠ q.tail then .error (.diverge, q) else .ok q
  | fuel + 1, h, q =>
    if h ≠ q.tail then do
      let b ← onPanic q (assign q.buf h none)
      clearLoop modBits fuel (Int.land (h + 1) modBits) { q with buf := b }
    else .ok q

/-- Method Clear.  After its first step h stays among the len(buf) values
0 .. len(buf)-1, so a loop that ends at all ends within len(buf) iterations;
the loop is given one more than that. -/
def Deque.Clear (q : Deque α) : Outcome α (Deque α) := do
  let modBits := q.bufLen - 1
  let q ← clearLoop modBits (q.buf.length + 1) q.head q
  pure { q with head := 0, tail := 0, count := 0 }

/-- The loop of Rotate for n < 0; the first argument is the number of
iterations left, that is -n. -/
def rotateBack (modBits : Int) : Nat → Deque α → Outcome α (Deque α)
  | 0, q => .ok q
  | k + 1, q => do
    let q := { q with head := Int.land (q.head - 1) modBits }
    let q := { q with tail := Int.land (q.tail - 1) modBits }
    let v ← onPanic q (index q.buf q.tail)
    let b ← onPanic q (assign q.buf q.head v)
    let q := { q with buf := b }
    let b ← onPanic q (assign q.buf q.tail none)
    rotateBack modBits k { q with buf := b }

/-- The loop of Rotate for n > 0; the first argument is the number of
iterations left, that is n. -/
def rotateFwd (modBits : Int) : Nat → Deque α → Outcome α (Deque α)
  | 0, q => .ok q
  | k + 1, q => do
    let v ← onPanic q (index q.buf q.head)
    let b ← onPanic q (assign q.buf q.tail v)
    let q := { q with buf := b }
    let b ← onPanic q (assign q.buf q.head none)
    let q := { q with buf := b }
    let q := { q with head := Int.land (q.head + 1) modBits }
    let q := { q with tail := Int.land (q.tail + 1) modBits }
    rotateFwd modBits k q

/-- Method Rotate.  The remainder n %= q.count of Go truncates towards zero. -/
def Deque.Rotate (q : Deque α) (n : Int) : Outcome α (Deque α) :=
  if q.count ≤ 1 then .ok q
  else
    let n := Int.tmod n q.count
    if n = 0 then .ok q
    else
      let modBits := q.bufLen - 1
      if q.head = q.tail then
        .ok { q with head := Int.land (q.head + n) modBits,
                     tail := Int.land (q.tail + n) modBits }
      else if n < 0 then rotateBack modBits (-n).toNat q
      else rotateFwd modBits n.toNat q

/-- Method SetMinCapacity; the parameter has type uint. -/
def Deque.SetMinCapacity (q : Deque α) (minCapacityExp : Nat) : Deque α :=
  if shlOne minCapacityExp > minCapacity then { q with minCap := shlOne minCapacityExp }
  else { q with minCap := minCapacity }

end Methods

/-! ## Reachable states and the logical sequence -/

section Reach

variable {α : Type}

/-- States reachable from the zero value by calls of the public methods that
return.  Len, Front, Back and At do not change the state and are left out. -/
inductive Reachable : Deque α → Prop
  | zero : Reachable zeroValue
  | pushBack {q q' : Deque α} (v : Option α) :
      Reachable q → q.PushBack v = .ok q' → Reachable q'
  | pushFront {q q' : Deque α} (v : Option α) :
      Reachable q → q.PushFront v = .ok q' → Reachable q'
  | popFront {q q' : Deque α} {v : Option α} :
      Reachable q → q.PopFront = .ok (v, q') → Reachable q'
  | popBack {q q' : Deque α} {v : Option α} :
      Reachable q → q.PopBack = .ok (v, q') → Reachable q'
  | clear {q q' : Deque α} : Reachable q → q.Clear = .ok q' → Reachable q'
  | rotate {q q' : Deque α} (n : Int) : Reachable q → q.Rotate n = .ok q' → Reachable q'
  | setMinCapacity {q : Deque α} (e : Nat) : Reachable q → Reachable (q.SetMinCapacity e)

/-- The list s is the logical sequence [At(0), ..., At(Len()-1)] of q. -/
def IsSeq (q : Deque α) (s : List (Option α)) : Prop :=
  q.Len = (s.length : Int) ∧ ∀ (i : Nat) (h : i < s.length), q.At (i : Int) = .ok s[i]

/-- PushBack called on each element of a list, in order. -/
def pushBackAll (q : Deque α) : List (Option α) → Outcome α (Deque α)
  | [] => .ok q
  | x :: xs => do
    let q ← q.PushBack x
    pushBackAll q xs

/-- PopFront called n times: the values returned, in the order of the calls,
and the deque left by the calls. -/
def popFrontN : Nat → Deque α → Outcome α (List (Option α) × Deque α)
  | 0, q => .ok ([], q)
  | n + 1, q => do
    let (v, q) ← q.PopFront
    let (vs, q) ← popFrontN n q
    pure (v :: vs, q)

/-- PopBack called n times: the values returned, in the order of the calls,
and the deque left by the calls. -/
def popBackN : Nat → Deque α → Outcome α (List (Option α) × Deque α)
  | 0, q => .ok ([], q)
  | n + 1, q => do
    let (v, q) ← q.PopBack
    let (vs, q) ← popBackN n q
    pure (v :: vs, q)

/-- The deque after PushBack(1) on the zero value. -/
def sample1 : Deque Nat := ⟨some 1 :: List.replicate 15 none, 0, 1, 1, 16⟩

/-- The deque after PushBack(1), PushBack(2), PushBack(3) on the zero value. -/
def sample3 : Deque Nat := ⟨[some 1, some 2, some 3] ++ List.replicate 13 none, 0, 3, 3, 16⟩

/-- The values 1 .. 16. -/
def sixteen : List (Option Nat) :=
  [some 1, some 2, some 3, some 4, some 5, some 6, some 7, some 8,
   some 9, some 10, some 11, some 12, some 13, some 14, some 15, some 16]

/-- The deque after PushBack of 1 .. 16 on the zero value: a buffer of 16
slots, all of them live, so that head and tail coincide. -/
def sample16 : Deque Nat := ⟨sixteen, 0, 0, 16, 16⟩

/-- The deque after PushBack of 1 .. 17 on the zero value: the seventeenth
push has doubled the buffer. -/
def sample17 : Deque Nat := ⟨sixteen ++ [some 17] ++ List.replicate 15 none, 0, 17, 17, 16⟩

/-- The deque after PushBack of 1 .. 17 and eight PopFront calls: the nine
elements 9 .. 17 in a buffer of 32 slots. -/
def sample9 : Deque Nat :=
  ⟨List.replicate 8 none ++
      [some 9, some 10, some 11, some 12, some 13, some 14, some 15, some 16, some 17] ++
      List.replicate 15 none, 8, 17, 9, 16⟩

/-- The deque after PopFront on sample9: the pop leaves 8 elements, a quarter
of the 32 slots, and the buffer is halved. -/
def sample8 : Deque Nat :=
  ⟨[some 10, some 11, some 12, some 13, some 14, some 15, some 16, some 17] ++
      List.replicate 8 none, 0, 8, 8, 16⟩

/-- The zero value after SetMinCapacity(62): no buffer yet and a minimum
capacity of 2^62 slots, above the limit of make. -/
def sampleBig : Deque Nat := ⟨[], 0, 0, 0, 2 ^ 62⟩

/-- States reached from q by calls of PopFront and PopBack that return, in
any number and order. -/
inductive PopsFrom (q : Deque α) : Deque α → Prop
  | refl : PopsFrom q q
  | front {q₁ q₂ : Deque α} {v : Option α} :
      PopsFrom q q₁ → q₁.PopFront = .ok (v, q₂) → PopsFrom q q₂
  | back {q₁ q₂ : Deque α} {v : Option α} :
      PopsFrom q q₁ → q₁.PopBack = .ok (v, q₂) → PopsFrom q q₂

/-- Physical slot of logical index i in a buffer of L slots whose first
element sits in slot h. -/
def slot (h L i : Nat) : Nat := if h + i < L then h + i else h + i - L

/-- Cursor, capacity and minimum-capacity invariant of the reachable states. -/
structure Inv (q : Deque α) : Prop where
  cap : q.buf.length = 0 ∨ ∃ k : Nat, 4 ≤ k ∧ q.buf.length = 2 ^ k
  head_nonneg : 0 ≤ q.head
  head_lt : q.head < (q.buf.length : Int) ∨ q.head = 0
  count_nonneg : 0 ≤ q.count
  count_le : q.count ≤ (q.buf.length : Int)
  tail_eq : q.tail = (slot q.head.toNat q.buf.length q.count.toNat : Nat)
  minCap_pow : q.minCap = 0 ∨ ∃ k : Nat, 4 ≤ k ∧ q.minCap = 2 ^ k
  alloc : q.buf.length ≠ 0 → q.minCap ≠ 0

/-- Abstraction relation: q is well formed and holds the sequence s, element
i of s in slot (head + i) mod len(buf). -/
def Abs (q : Deque α) (s : List (Option α)) : Prop :=
  Inv q ∧ q.count = (s.length : Int) ∧
    ∀ i : Nat, i < s.length → q.buf[slot q.head.toNat q.buf.length i]? = s[i]?

/-- The state with buffer buf, head h, n live elements and minimum capacity m,
its tail being where the invariant puts it. -/
def canon (buf : List (Option α)) (h n : Nat) (m : Int) : Deque α :=
  ⟨buf, (h : Int), (slot h buf.length n : Nat), (n : Int), m⟩

/-- Side conditions under which canon buf h |s| m holds the sequence s. -/
structure Good (buf : List (Option α)) (h : Nat) (m : Int) (s : List (Option α)) : Prop where
  head : h < buf.length ∨ h = 0
  len : s.length ≤ buf.length
  cap : buf.length = 0 ∨ ∃ k : Nat, 4 ≤ k ∧ buf.length = 2 ^ k
  minCap : m = 0 ∨ ∃ k : Nat, 4 ≤ k ∧ m = 2 ^ k
  alloc : buf.length ≠ 0 → m ≠ 0
  elems : ∀ i : Nat, i < s.length → buf[slot h buf.length i]? = s[i]?

end Reach

/-! ## Bit masks and the primitives -/

section Lemmas

variable {α : Type}

theorem ldiff_mask (k n : Nat) : Nat.ldiff (2 ^ k - 1) n = 2 ^ k - 1 - n % 2 ^ k := by
  apply Nat.eq_of_testBit_eq
  intro i
  have hlt : n % 2 ^ k < 2 ^ k := Nat.mod_lt _ (Nat.two_pow_pos k)
  have h2 : 2 ^ k - 1 - n % 2 ^ k = 2 ^ k - (n % 2 ^ k + 1) := by omega
  rw [Nat.testBit_ldiff, Nat.testBit_two_pow_sub_one, h2, Nat.testBit_two_pow_sub_succ hlt,
    Nat.testBit_mod_two_pow]
  by_cases hi : i < k <;> simp [hi]

/-- Masking with 2^k - 1 is the non-negative remainder modulo 2^k, also for a
negative left operand. -/
theorem land_mask (x : Int) (k : Nat) : Int.land x (2 ^ k - 1) = x % 2 ^ k := by
  have hP : ((2 : Int) ^ k) = ((2 ^ k : Nat) : Int) := by push_cast; rfl
  have hpos := Nat.two_pow_pos k
  have hm : ((2 : Int) ^ k - 1) = ((2 ^ k - 1 : Nat) : Int) := by
    rw [hP]; omega
  rw [hm]
  cases x with
  | ofNat n =>
    show ((n &&& (2 ^ k - 1) : Nat) : Int) = _
    rw [Nat.and_pow_two_sub_one_eq_mod, hP]
    simp
  | negSucc n =>
    show ((Nat.ldiff (2 ^ k - 1) n : Nat) : Int) = _
    rw [ldiff_mask, hP]
    have hlt : n % 2 ^ k < 2 ^ k := Nat.mod_lt _ (Nat.two_pow_pos k)
    rw [Int.negSucc_emod _ (by positivity)]
    generalize 2 ^ k = P at *
    have : ((n : Int) % (P : Int)) = ((n % P : Nat) : Int) := by simp
    rw [this]
    omega

theorem land_mask_nat (x : Int) {L k : Nat} (hL : L = 2 ^ k) :
    Int.land x ((L : Int) - 1) = x % (L : Int) := by
  have : (L : Int) = 2 ^ k := by subst hL; push_cast; rfl
  rw [this, land_mask]

theorem land_lo {x : Int} {L k : Nat} (hL : L = 2 ^ k) (h0 : 0 ≤ x) (h1 : x < (L : Int)) :
    Int.land x ((L : Int) - 1) = x := by
  rw [land_mask_nat x hL, Int.emod_eq_of_lt h0 h1]

theorem land_hi {x : Int} {L k : Nat} (hL : L = 2 ^ k) (h0 : (L : Int) ≤ x)
    (h1 : x < 2 * (L : Int)) : Int.land x ((L : Int) - 1) = x - L := by
  rw [land_mask_nat x hL]
  have : x = (x - L) + L := by ring
  rw [this, Int.add_emod_self, Int.emod_eq_of_lt (by omega) (by omega)]
  ring

theorem land_neg {x : Int} {L k : Nat} (hL : L = 2 ^ k) (h0 : -(L : Int) ≤ x) (h1 : x < 0) :
    Int.land x ((L : Int) - 1) = x + L := by
  rw [land_mask_nat x hL, ← Int.add_emod_self, Int.emod_eq_of_lt (by omega) (by omega)]

theorem onPanic_ok {β : Type} (q : Deque α) (b : β) :
    onPanic q (Except.ok b : Except Fault β) = .ok b := rfl

theorem index_nat (b : List (Option α)) (n : Nat) (h : n < b.length) :
    index b (n : Int) = .ok (b[n]?.getD none) := by
  have : (0 : Int) ≤ n ∧ (n : Int) < b.length := by omega
  simp [index, this, List.getD_eq_getElem?_getD]

theorem assign_nat (b : List (Option α)) (n : Nat) (h : n < b.length) (v : Option α) :
    assign b (n : Int) v = .ok (b.set n v) := by
  have : (0 : Int) ≤ n ∧ (n : Int) < b.length := by omega
  simp [assign, this]

theorem slot_lt {h L i : Nat} (hh : h < L) (hi : i ≤ L) : slot h L i < L := by
  unfold slot; split_ifs <;> omega

theorem slot_zero {h L : Nat} (hh : h < L) : slot h L 0 = h := by
  unfold slot; split_ifs <;> omega

theorem slot_ne {h L i j : Nat} (hij : i < j) (hj : j < i + L) :
    slot h L j ≠ slot h L i := by
  unfold slot; split_ifs <;> omega

/-- The slot after slot i, with wrap-around at the end of the buffer. -/
theorem slot_succ {h L i : Nat} (hh : h < L) (hi : i < L) :
    (slot h L i + 1 < L ∧ slot h L (i + 1) = slot h L i + 1) ∨
      (slot h L i + 1 = L ∧ slot h L (i + 1) = 0) := by
  unfold slot; split_ifs <;> omega

/-- The slot before the head holds logical index L - 1 of a full turn. -/
theorem slot_pred {h L : Nat} (hh : h < L) :
    (0 < h ∧ slot h L (L - 1) = h - 1) ∨ (h = 0 ∧ slot h L (L - 1) = L - 1) := by
  unfold slot; split_ifs <;> omega

/-- Moving the head forward by d slots shifts every logical index by d. -/
theorem slot_add {h L d i : Nat} (hh : h < L) (hdi : d + i ≤ L) :
    slot (slot h L d) L i = slot h L (d + i) := by
  unfold slot; split_ifs <;> omega

/-- Moving the head back by one slot shifts every logical index by one. -/
theorem slot_pred_succ {h L i : Nat} (hh : h < L) (hi : i < L) :
    slot (slot h L (L - 1)) L (i + 1) = slot h L i := by
  unfold slot; split_ifs <;> omega

theorem slice_nat (b : List (Option α)) (lo hi : Nat) (h1 : lo ≤ hi) (h2 : hi ≤ b.length) :
    slice b (lo : Int) (hi : Int) = .ok ((b.drop lo).take (hi - lo)) := by
  have : (0 : Int) ≤ lo ∧ (lo : Int) ≤ hi ∧ (hi : Int) ≤ b.length := by omega
  have e : ((hi : Int) - lo).toNat = hi - lo := by omega
  simp [slice, this, e]

theorem make_nat (held n : Nat) (h : (n : Int) ≤ maxSliceLen ∨ n ≤ 2 * held) :
    (make held (n : Int) : Except Fault (List (Option α))) = .ok (List.replicate n none) := by
  have hc : (0 : Int) ≤ (n : Int) ∧ ((n : Int) ≤ maxSliceLen ∨ (n : Int) ≤ 2 * (held : Int)) :=
    ⟨by omega, by rcases h with h | h; exact Or.inl h; exact Or.inr (by omega)⟩
  simp only [make, hc, and_self, if_true, Int.toNat_ofNat]

theorem copy_fits (dst src : List (Option α)) (h : src.length ≤ dst.length) :
    copy dst src = (src ++ dst.drop src.length, (src.length : Int)) := by
  simp [copy, Nat.min_eq_right h]

/-- A live range that does not wrap is a contiguous window of the buffer. -/
theorem window_flat {buf s : List (Option α)} {h : Nat}
    (hs : ∀ i : Nat, i < s.length → buf[slot h buf.length i]? = s[i]?)
    (hfit : h + s.length ≤ buf.length) : (buf.drop h).take s.length = s := by
  apply List.ext_getElem?
  intro n
  rw [List.getElem?_take, List.getElem?_drop]
  by_cases hn : n < s.length
  · have := hs n hn
    have e : slot h buf.length n = h + n := by unfold slot; rw [if_pos (by omega)]
    rw [e] at this
    simp [hn, this]
  · simp [hn, List.getElem?_eq_none (Nat.le_of_not_lt hn)]

/-- A live range that wraps is the end of the buffer followed by its start. -/
theorem window_wrap {buf s : List (Option α)} {h : Nat}
    (hs : ∀ i : Nat, i < s.length → buf[slot h buf.length i]? = s[i]?)
    (hh : h < buf.length) (hwrap : buf.length ≤ h + s.length) :
    buf.drop h = s.take (buf.length - h) ∧
      buf.take (h + s.length - buf.length) = s.drop (buf.length - h) := by
  constructor
  · apply List.ext_getElem?
    intro n
    rw [List.getElem?_take, List.getElem?_drop]
    by_cases hn : n < buf.length - h
    · have := hs n (by omega)
      have e : slot h buf.length n = h + n := by unfold slot; rw [if_pos (by omega)]
      rw [e] at this
      simp [hn, this]
    · simp [hn, List.getElem?_eq_none (show buf.length ≤ h + n by omega)]
  · apply List.ext_getElem?
    intro n
    rw [List.getElem?_take, List.getElem?_drop]
    by_cases hn : n < h + s.length - buf.length
    · have := hs (buf.length - h + n) (by omega)
      have e : slot h buf.length (buf.length - h + n) = n := by
        unfold slot; rw [if_neg (by omega)]; omega
      rw [e] at this
      simp [hn, this]
    · simp [hn, List.getElem?_eq_none (show s.length ≤ buf.length - h + n by omega)]

/-- Nat view of the invariant. -/
theorem inv_nat {q : Deque α} (hI : Inv q) :
    ∃ h c : Nat, q.head = h ∧ q.count = c ∧ c ≤ q.buf.length ∧
      (h < q.buf.length ∨ h = 0) ∧ q.tail = (slot h q.buf.length c : Nat) := by
  obtain ⟨h, hh⟩ := Int.eq_ofNat_of_zero_le hI.head_nonneg
  obtain ⟨c, hc⟩ := Int.eq_ofNat_of_zero_le hI.count_nonneg
  refine ⟨h, c, hh, hc, ?_, ?_, ?_⟩
  · have := hI.count_le; omega
  · have := hI.head_lt; omega
  · have := hI.tail_eq; rw [hh, hc] at this; simpa using this

theorem abs_at {q : Deque α} {s : List (Option α)} (hA : Abs q s) (i : Nat)
    (hi : i < s.length) : q.At (i : Int) = .ok s[i] := by
  obtain ⟨hI, hc, hs⟩ := hA
  obtain ⟨h, c, hh, hc', hcL, hhL, -⟩ := inv_nat hI
  have hcap := hI.cap
  have hsi := hs i hi
  obtain ⟨buf, head, tail, count, minCap⟩ := q
  simp only at *
  subst hh
  have hLpos : 0 < buf.length := by omega
  obtain ⟨k, -, hk⟩ : ∃ k : Nat, 4 ≤ k ∧ buf.length = 2 ^ k := by
    rcases hcap with h0 | h1
    · omega
    · exact h1
  have hland : Int.land ((h : Int) + i) ((buf.length : Int) - 1) = (slot h buf.length i : Nat) := by
    unfold slot
    split
    · rw [land_lo hk (by omega) (by omega)]; omega
    · rw [land_hi hk (by omega) (by omega)]; omega
  have hsl : slot h buf.length i < buf.length := by unfold slot; split <;> omega
  have hno : ¬ ((i : Int) < 0 ∨ (i : Int) ≥ count) := by omega
  simp only [Deque.At, hno, if_false, Deque.bufLen, hland, index_nat _ _ hsl]
  simp only [Int.toNat_ofNat] at hsi
  rw [hsi, List.getElem?_eq_getElem hi]
  rfl

/-- What resize computes on a well-formed state: the sequence followed by as
many nil slots, with the cursors reset. -/
theorem resize_eq {q : Deque α} {s : List (Option α)} (hA : Abs q s)
    (hpos : 0 < q.buf.length) :
    q.resize = .ok { q with head := 0, tail := q.count,
                            buf := s ++ List.replicate s.length none } := by
  obtain ⟨hI, hc, hs⟩ := hA
  obtain ⟨h, c, hh, hc', hcL, hhL, ht⟩ := inv_nat hI
  obtain ⟨buf, head, tail, count, minCap⟩ := q
  simp only at *
  subst hh ht
  have hcs : c = s.length := by omega
  subst hcs
  simp only [Int.toNat_ofNat] at hs
  have hmk : (make buf.length ((s.length : Int) * 2) : Except Fault (List (Option α))) =
      .ok (List.replicate (s.length * 2) none) := by
    have : (s.length : Int) * 2 = ((s.length * 2 : Nat) : Int) := by push_cast; rfl
    rw [this, make_nat _ _ (Or.inr (by omega))]
  simp only [Deque.resize, hc, hmk, onPanic, bind, Except.bind, Deque.bufLen, pure, Except.pure]
  by_cases hw : h + s.length < buf.length
  · -- the live range does not wrap
    have e : slot h buf.length s.length = h + s.length := by unfold slot; rw [if_pos hw]
    rw [e]
    by_cases h0 : s.length = 0
    · have hnil : s = [] := List.length_eq_zero.mp h0
      subst hnil
      have : h ≤ buf.length := by omega
      simp [slice, copy, this]
    · have hgt : ((h + s.length : Nat) : Int) > (h : Int) := by omega
      rw [if_pos hgt, slice_nat _ _ _ (by omega) (by omega)]
      have hwin := window_flat hs (by omega)
      have e2 : h + s.length - h = s.length := by omega
      simp only [e2, hwin]
      rw [copy_fits _ _ (by simp; omega)]
      simp only [List.drop_replicate]
      have e3 : s.length * 2 - s.length = s.length := by omega
      rw [e3]
  · -- the live range wraps, or ends exactly at the end of the buffer
    have e : slot h buf.length s.length = h + s.length - buf.length := by
      unfold slot; rw [if_neg hw]
    rw [e]
    have hle : ¬ (((h + s.length - buf.length : Nat) : Int) > (h : Int)) := by omega
    rw [if_neg hle]
    have hh' : h < buf.length := by omega
    obtain ⟨w1, w2⟩ := window_wrap hs hh' (by omega)
    rw [slice_nat _ _ _ (by omega) (by omega)]
    have hz : ((0 : Int)) = ((0 : Nat) : Int) := rfl
    have hs1 : (buf.drop h).take (buf.length - h) = s.take (buf.length - h) := by
      rw [List.take_of_length_le (by simp)]; exact w1
    simp only [hs1]
    rw [copy_fits _ _ (by simp; omega)]
    simp only [List.length_take, List.drop_replicate]
    have hmin : min (buf.length - h) s.length = buf.length - h := by omega
    simp only [hmin]
    have hlen : (List.take (buf.length - h) s ++
        List.replicate (s.length * 2 - (buf.length - h)) (none : Option α)).length
          = s.length * 2 := by
      simp; omega
    rw [hlen, slice_nat _ _ _ (by omega) (by simp; omega)]
    rw [hz, slice_nat _ _ _ (by omega) (by omega)]
    simp only [List.drop_zero, Nat.sub_zero, w2, Int.toNat_ofNat]
    have hd : List.drop (buf.length - h) (List.take (buf.length - h) s ++
        List.replicate (s.length * 2 - (buf.length - h)) (none : Option α))
          = List.replicate (s.length * 2 - (buf.length - h)) none := by
      rw [List.drop_append_of_le_length (by simp; omega)]
      simp
    have ht : List.take (buf.length - h) (List.take (buf.length - h) s ++
        List.replicate (s.length * 2 - (buf.length - h)) (none : Option α))
          = List.take (buf.length - h) s := by
      rw [List.take_append_of_le_length (by simp; omega)]
      rw [List.take_take, Nat.min_self]
    rw [hd, ht, List.take_replicate, Nat.min_self]
    rw [copy_fits _ _ (by simp; omega)]
    simp only [List.drop_replicate, List.length_drop]
    rw [← List.append_assoc, List.take_append_drop]
    have e3 : s.length * 2 - (buf.length - h) - (s.length - (buf.length - h)) = s.length := by
      omega
    rw [e3]

theorem inv_pow {q : Deque α} (hI : Inv q) (hpos : 0 < q.buf.length) :
    ∃ k : Nat, 4 ≤ k ∧ q.buf.length = 2 ^ k := by
  rcases hI.cap with h0 | h1
  · omega
  · exact h1

/-- The state left by resize holds the same sequence whenever twice the count
is an admissible capacity. -/
theorem abs_resized {q : Deque α} {s : List (Option α)} (hA : Abs q s)
    (hpos : 0 < q.buf.length) {k : Nat} (hk : 4 ≤ k) (h2 : s.length * 2 = 2 ^ k) :
    Abs { q with head := 0, tail := q.count,
                 buf := s ++ List.replicate s.length none } s := by
  obtain ⟨hI, hc, -⟩ := hA
  have hlen : (s ++ List.replicate s.length (none : Option α)).length = s.length * 2 := by
    simp; omega
  have hspos : 0 < s.length := by
    rcases Nat.eq_zero_or_pos s.length with h0 | h0
    · rw [h0] at h2; have := Nat.two_pow_pos k; omega
    · exact h0
  refine ⟨⟨?_, ?_, ?_, ?_, ?_, ?_, ?_, ?_⟩, hc, ?_⟩
  · right; exact ⟨k, hk, by simp only [hlen]; exact h2⟩
  · simp
  · right; rfl
  · exact hI.count_nonneg
  · simp only [hlen, hc]; omega
  · simp only [hlen, hc, Int.toNat_ofNat, Int.toNat_zero, slot]
    rw [if_pos (by omega)]; simp
  · exact hI.minCap_pow
  · intro _; exact hI.alloc (by omega)
  · intro i hi
    simp only [hlen, Int.toNat_zero, slot]
    rw [if_pos (by omega), Nat.zero_add, List.getElem?_append_left hi]

/-- After growIfFull the deque holds the same sequence and has a free slot. -/
theorem abs_growIfFull {q : Deque α} {s : List (Option α)} (hA : Abs q s)
    (hfit : q.bufLen = 0 → q.minCap ≤ maxSliceLen) :
    ∃ q', q.growIfFull = .ok q' ∧ Abs q' s ∧ q'.count < (q'.buf.length : Int) ∧
      q'.minCap ≠ 0 := by
  have hA' := hA
  obtain ⟨hI, hc, hs⟩ := hA
  by_cases hL : q.buf.length = 0
  · -- first allocation
    have hcount : q.count = 0 := by
      have h1 := hI.count_le; have h2 := hI.count_nonneg; omega
    have hs0 : s = [] := List.length_eq_zero.mp (by omega)
    have hhead : q.head = 0 := by
      have h1 := hI.head_lt; have h2 := hI.head_nonneg; omega
    have hb : q.bufLen = 0 := by simp [Deque.bufLen, hL]
    subst hs0
    obtain ⟨m, k, hk, hm, hq, hmax⟩ : ∃ (m k : Nat), 4 ≤ k ∧ m = 2 ^ k ∧
        (if q.minCap = 0 then { q with minCap := minCapacity } else q) =
          { q with minCap := (m : Int) } ∧ (m : Int) ≤ maxSliceLen := by
      rcases hI.minCap_pow with h0 | ⟨k, hk, hm⟩
      · exact ⟨16, 4, le_refl _, by norm_num, by simp [h0, minCapacity], by decide⟩
      · refine ⟨2 ^ k, k, hk, rfl, ?_, ?_⟩
        · have hne : q.minCap ≠ 0 := by rw [hm]; positivity
          rw [if_neg hne]
          cases q
          simp only at hm
          simp [hm]
        · have := hfit hb
          rw [hm] at this
          push_cast
          exact this
    have hmpos : 0 < m := by rw [hm]; exact Nat.two_pow_pos k
    refine ⟨{ q with minCap := (m : Int), buf := List.replicate m none }, ?_, ?_, ?_, ?_⟩
    · simp only [Deque.growIfFull, hb, if_true, hq, bind, Except.bind,
        make_nat _ _ (Or.inl hmax), onPanic_ok, pure, Except.pure]
    · refine ⟨⟨?_, ?_, ?_, ?_, ?_, ?_, ?_, ?_⟩, ?_, ?_⟩
      · right; exact ⟨k, hk, by simp [hm]⟩
      · simp [hhead]
      · right; exact hhead
      · simp [hcount]
      · simp [hcount]
      · have ht := hI.tail_eq
        simp only [hhead, hcount, hL, Int.toNat_zero, slot] at ht
        simp only [hhead, hcount, Int.toNat_zero, slot, List.length_replicate]
        rw [if_pos (by omega)]
        simpa using ht
      · right; exact ⟨k, hk, by simp [hm]⟩
      · intro _; simp only; omega
      · simpa using hcount
      · intro i hi; simp at hi
    · simp only [List.length_replicate, hcount]; omega
    · simp only; omega
  · have hpos : 0 < q.buf.length := Nat.pos_of_ne_zero hL
    have hb : ¬ q.bufLen = 0 := by simp [Deque.bufLen, hL]
    obtain ⟨k, hk, hpow⟩ := inv_pow hI hpos
    by_cases hfull : q.count = q.bufLen
    · -- doubling
      have hsl : s.length = q.buf.length := by
        simp only [Deque.bufLen] at hfull; omega
      have h2 : s.length * 2 = 2 ^ (k + 1) := by rw [hsl, hpow, pow_succ]
      refine ⟨_, ?_, abs_resized hA' hpos (by omega) h2, ?_, hI.alloc hL⟩
      · simp only [Deque.growIfFull, hb, if_false, hfull, if_true]
        rw [← hfull]
        exact resize_eq hA' hpos
      · simp only [List.length_append, List.length_replicate, hc]; omega
    · refine ⟨q, ?_, hA', ?_, hI.alloc hL⟩
      · simp only [Deque.growIfFull, hb, if_false, hfull]; rfl
      · have := hI.count_le
        simp only [Deque.bufLen] at hfull
        omega

/-- PushBack on a deque holding s returns and leaves a deque holding s ++ [v]. -/
theorem abs_pushBack {q : Deque α} {s : List (Option α)} (hA : Abs q s)
    (hfit : q.bufLen = 0 → q.minCap ≤ maxSliceLen) (v : Option α) :
    ∃ q', q.PushBack v = .ok q' ∧ Abs q' (s ++ [v]) := by
  obtain ⟨q₁, hg, hA₁, hroom, -⟩ := abs_growIfFull hA hfit
  obtain ⟨hI, hc, hs⟩ := hA₁
  obtain ⟨h, c, hh, hc', hcL, hhL, ht⟩ := inv_nat hI
  have hpos : 0 < q₁.buf.length := by have := hI.count_nonneg; omega
  obtain ⟨buf, head, tail, count, minCap⟩ := q₁
  simp only at *
  subst hh ht hc'
  have hcs : c = s.length := by omega
  subst hcs
  simp only [Int.toNat_ofNat] at hs
  have hh' : h < buf.length := by omega
  have hroom' : s.length < buf.length := by omega
  have hsl : slot h buf.length s.length < buf.length := slot_lt hh' hcL
  have hminpow : minCap = 0 ∨ ∃ k : Nat, 4 ≤ k ∧ minCap = 2 ^ k := hI.minCap_pow
  have halloc : buf.length ≠ 0 → minCap ≠ 0 := hI.alloc
  obtain ⟨k, hk, hpow⟩ : ∃ k : Nat, 4 ≤ k ∧ buf.length = 2 ^ k := inv_pow hI hpos
  have hnext : Int.land ((slot h buf.length s.length : Nat) + 1 : Int)
      (((buf.set (slot h buf.length s.length) v).length : Int) - 1)
        = (slot h buf.length (s.length + 1) : Nat) := by
    rw [List.length_set]
    rcases slot_succ hh' hroom' with ⟨hz, e⟩ | ⟨hz, e⟩
    · have e1 : (0 : Int) ≤ (slot h buf.length s.length : Nat) + 1 := by omega
      have e2 : ((slot h buf.length s.length : Nat) + 1 : Int) < (buf.length : Int) := by omega
      rw [land_lo hpow e1 e2, e]; rfl
    · have e1 : (buf.length : Int) ≤ (slot h buf.length s.length : Nat) + 1 := by omega
      have e2 : ((slot h buf.length s.length : Nat) + 1 : Int) < 2 * (buf.length : Int) := by
        omega
      rw [land_hi hpow e1 e2, e]; omega
  refine ⟨⟨buf.set (slot h buf.length s.length) v, h, (slot h buf.length (s.length + 1) : Nat),
    (s.length : Int) + 1, minCap⟩, ?_, ?_⟩
  · simp only [Deque.PushBack, hg, bind, Except.bind, assign_nat _ _ hsl, onPanic_ok, Deque.next,
      Deque.bufLen, hnext, pure, Except.pure]
  · refine ⟨⟨?_, ?_, ?_, ?_, ?_, ?_, hminpow, ?_⟩, ?_, ?_⟩
    · right; exact ⟨k, hk, by simpa using hpow⟩
    · simp
    · left; simp only [List.length_set]; omega
    · simp only; omega
    · simp only [List.length_set]; omega
    · simp only [List.length_set, Int.toNat_ofNat]
      have : ((s.length : Int) + 1).toNat = s.length + 1 := by omega
      rw [this]
    · simpa using halloc
    · simp
    · intro i hi
      simp only [List.length_append, List.length_singleton] at hi
      simp only [List.length_set, Int.toNat_ofNat]
      by_cases hlt : i < s.length
      · have hne : slot h buf.length s.length ≠ slot h buf.length i :=
          slot_ne hlt (by omega)
        rw [List.getElem?_set_ne hne, hs i hlt, List.getElem?_append_left hlt]
      · have hi' : i = s.length := by omega
        subst hi'
        rw [List.getElem?_set_self hsl]
        simp

/-! ### Canonical form of a well-formed state -/

theorem abs_canon {buf s : List (Option α)} {h : Nat} {m : Int} (hG : Good buf h m s) :
    Abs (canon buf h s.length m) s := by
  refine ⟨⟨hG.cap, ?_, ?_, ?_, ?_, ?_, hG.minCap, hG.alloc⟩, rfl, ?_⟩
  · simp [canon]
  · have := hG.head; simp only [canon]; omega
  · simp [canon]
  · have := hG.len; simp only [canon]; omega
  · simp [canon]
  · simpa [canon] using hG.elems

theorem abs_unpack {q : Deque α} {s : List (Option α)} (hA : Abs q s) :
    ∃ (buf : List (Option α)) (h : Nat) (m : Int),
      q = canon buf h s.length m ∧ Good buf h m s := by
  obtain ⟨hI, hc, hs⟩ := hA
  obtain ⟨h, c, hh, hc', hcL, hhL, ht⟩ := inv_nat hI
  have hcap := hI.cap
  have hmin := hI.minCap_pow
  have hal := hI.alloc
  obtain ⟨buf, head, tail, count, minCap⟩ := q
  simp only at *
  subst hh ht
  have hcs : c = s.length := by omega
  subst hcs
  simp only [Int.toNat_ofNat] at hs
  exact ⟨buf, h, minCap, by simp [canon, hc], ⟨hhL, hcL, hcap, hmin, hal, hs⟩⟩

theorem good_pow {buf s : List (Option α)} {h : Nat} {m : Int} (hG : Good buf h m s)
    (hpos : 0 < buf.length) : ∃ k : Nat, 4 ≤ k ∧ buf.length = 2 ^ k := by
  rcases hG.cap with h0 | h1
  · omega
  · exact h1

/-- The minimum capacity of an allocated deque is at least 16. -/
theorem good_minCap_ge {buf s : List (Option α)} {h : Nat} {m : Int} (hG : Good buf h m s)
    (hpos : 0 < buf.length) : 16 ≤ m := by
  rcases hG.minCap with h0 | ⟨k, hk, hm⟩
  · exact absurd h0 (hG.alloc (by omega))
  · rw [hm]
    have : (2 : Int) ^ 4 ≤ 2 ^ k := pow_le_pow_right₀ (by norm_num) hk
    norm_num at this
    exact this

/-- Masked successor of a slot. -/
theorem land_slot_succ {L k h i : Nat} (hL : L = 2 ^ k) (hh : h < L) (hi : i < L) :
    Int.land ((slot h L i : Nat) + 1 : Int) ((L : Int) - 1) = (slot h L (i + 1) : Nat) := by
  rcases slot_succ hh hi with ⟨hz, e⟩ | ⟨hz, e⟩
  · have e1 : (0 : Int) ≤ (slot h L i : Nat) + 1 := by omega
    have e2 : ((slot h L i : Nat) + 1 : Int) < (L : Int) := by omega
    rw [land_lo hL e1 e2, e]; rfl
  · have e1 : (L : Int) ≤ (slot h L i : Nat) + 1 := by omega
    have e2 : ((slot h L i : Nat) + 1 : Int) < 2 * (L : Int) := by omega
    rw [land_hi hL e1 e2, e]; omega

/-- Masked predecessor of a slot. -/
theorem land_slot_pred {L k h i : Nat} (hL : L = 2 ^ k) (hh : h < L) (hi : i < L) :
    Int.land ((slot h L (i + 1) : Nat) - 1 : Int) ((L : Int) - 1) = (slot h L i : Nat) := by
  rcases slot_succ hh hi with ⟨hz, e⟩ | ⟨hz, e⟩
  · have e1 : (0 : Int) ≤ (slot h L (i + 1) : Nat) - 1 := by omega
    have e2 : ((slot h L (i + 1) : Nat) - 1 : Int) < (L : Int) := by omega
    rw [land_lo hL e1 e2, e]; omega
  · have e1 : -(L : Int) ≤ (slot h L (i + 1) : Nat) - 1 := by omega
    have e2 : ((slot h L (i + 1) : Nat) - 1 : Int) < 0 := by omega
    rw [land_neg hL e1 e2, e]; omega

/-- Masked predecessor of the head. -/
theorem land_head_pred {L k h : Nat} (hL : L = 2 ^ k) (hh : h < L) :
    Int.land ((h : Int) - 1) ((L : Int) - 1) = (slot h L (L - 1) : Nat) := by
  rcases slot_pred hh with ⟨hz, e⟩ | ⟨hz, e⟩
  · have e1 : (0 : Int) ≤ (h : Int) - 1 := by omega
    have e2 : ((h : Int) - 1) < (L : Int) := by omega
    rw [land_lo hL e1 e2, e]; omega
  · have e1 : -(L : Int) ≤ (h : Int) - 1 := by omega
    have e2 : ((h : Int) - 1) < 0 := by omega
    rw [land_neg hL e1 e2, e]; omega

/-- After shrinkIfExcess the deque holds the same sequence. -/
theorem abs_shrinkIfExcess {q : Deque α} {s : List (Option α)} (hA : Abs q s) :
    ∃ q', q.shrinkIfExcess = .ok q' ∧ Abs q' s := by
  by_cases hcond : q.bufLen > q.minCap ∧ q.count * 4 = q.bufLen
  · obtain ⟨buf, h, m, rfl, hG⟩ := abs_unpack hA
    obtain ⟨h1, h2⟩ := hcond
    simp only [canon, Deque.bufLen] at h1 h2
    have hmn : 0 ≤ m := by
      rcases hG.minCap with h0 | ⟨k, -, hm⟩
      · omega
      · rw [hm]; positivity
    have hpos : 0 < buf.length := by omega
    have h16 := good_minCap_ge hG hpos
    obtain ⟨k, hk, hpow⟩ := good_pow hG hpos
    have hk5 : 5 ≤ k := by
      rcases Nat.lt_or_ge k 5 with hlt | hge
      · have : k = 4 := by omega
        subst this
        norm_num at hpow
        omega
      · exact hge
    have h2' : s.length * 2 = 2 ^ (k - 1) := by
      have e : 2 ^ k = 2 ^ (k - 1) * 2 := by
        rw [← pow_succ]; congr 1; omega
      have : s.length * 4 = buf.length := by omega
      rw [hpow, e] at this
      omega
    refine ⟨_, ?_, abs_resized hA hpos (show 4 ≤ k - 1 by omega) h2'⟩
    have hc : (canon buf h s.length m).bufLen > (canon buf h s.length m).minCap ∧
        (canon buf h s.length m).count * 4 = (canon buf h s.length m).bufLen := by
      simp only [canon, Deque.bufLen]; exact ⟨h1, h2⟩
    simp only [Deque.shrinkIfExcess, hc, and_self, if_true]
    exact resize_eq hA hpos
  · exact ⟨q, by simp only [Deque.shrinkIfExcess, hcond, if_false]; rfl, hA⟩

/-- PushFront on a deque holding s returns and leaves a deque holding v :: s. -/
theorem abs_pushFront {q : Deque α} {s : List (Option α)} (hA : Abs q s)
    (hfit : q.bufLen = 0 → q.minCap ≤ maxSliceLen) (v : Option α) :
    ∃ q', q.PushFront v = .ok q' ∧ Abs q' (v :: s) := by
  obtain ⟨q₁, hg, hA₁, hroom, -⟩ := abs_growIfFull hA hfit
  obtain ⟨buf, h, m, rfl, hG⟩ := abs_unpack hA₁
  simp only [canon] at hroom
  have hroom' : s.length < buf.length := by omega
  have hpos : 0 < buf.length := by omega
  have hh : h < buf.length := by have := hG.head; omega
  obtain ⟨k, hk, hpow⟩ := good_pow hG hpos
  have hp := slot_lt hh (show buf.length - 1 ≤ buf.length by omega)
  have hG' : Good (buf.set (slot h buf.length (buf.length - 1)) v)
      (slot h buf.length (buf.length - 1)) m (v :: s) := by
    refine ⟨?_, ?_, ?_, hG.minCap, ?_, ?_⟩
    · left; simpa using hp
    · simp only [List.length_set, List.length_cons]; omega
    · simpa using hG.cap
    · simpa using hG.alloc
    · intro i hi
      simp only [List.length_set]
      cases i with
      | zero =>
        rw [slot_zero hp, List.getElem?_set_self hp]; simp
      | succ j =>
        simp only [List.length_cons] at hi
        have hj : j < s.length := by omega
        rw [slot_pred_succ hh (by omega), List.getElem?_cons_succ, ← hG.elems j hj]
        exact List.getElem?_set_ne (slot_ne (by omega) (by omega))
  refine ⟨_, ?_, abs_canon hG'⟩
  have htail : slot (slot h buf.length (buf.length - 1)) buf.length (s.length + 1)
      = slot h buf.length s.length := slot_pred_succ hh hroom'
  simp only [Deque.PushFront, hg, bind, Except.bind, canon, Deque.prev, Deque.bufLen,
    land_head_pred hpow hh, assign_nat _ _ hp, onPanic_ok, pure, Except.pure,
    List.length_set, List.length_cons, htail]
  rfl

/-- PopFront on a deque holding x :: s returns x and leaves a deque holding s. -/
theorem abs_popFront {q : Deque α} {s : List (Option α)} {x : Option α}
    (hA : Abs q (x :: s)) : ∃ q', q.PopFront = .ok (x, q') ∧ Abs q' s := by
  obtain ⟨buf, h, m, rfl, hG⟩ := abs_unpack hA
  have hlen := hG.len
  simp only [List.length_cons] at hlen
  have hpos : 0 < buf.length := by omega
  have hh : h < buf.length := by have := hG.head; omega
  obtain ⟨k, hk, hpow⟩ := good_pow hG hpos
  have h0 := hG.elems 0 (by simp)
  rw [slot_zero hh] at h0
  have hn := slot_lt hh (show 1 ≤ buf.length by omega)
  have hG' : Good (buf.set h none) (slot h buf.length 1) m s := by
    refine ⟨?_, ?_, ?_, hG.minCap, ?_, ?_⟩
    · left; simpa using hn
    · simp only [List.length_set]; omega
    · simpa using hG.cap
    · simpa using hG.alloc
    · intro i hi
      simp only [List.length_set]
      have e := hG.elems (i + 1) (by simp; omega)
      rw [List.getElem?_cons_succ] at e
      rw [slot_add hh (by omega), Nat.add_comm 1 i, ← e]
      have hne : h ≠ slot h buf.length (i + 1) := by
        have := slot_ne (h := h) (L := buf.length) (i := 0) (j := i + 1) (by omega) (by omega)
        rw [slot_zero hh] at this
        exact fun e => this e.symm
      exact List.getElem?_set_ne hne
  obtain ⟨q', hsh, hA'⟩ := abs_shrinkIfExcess (abs_canon hG')
  refine ⟨q', ?_, hA'⟩
  have hcnt : ¬ ((s.length : Int) + 1 ≤ 0) := by omega
  have hnext : Int.land ((h : Int) + 1) ((buf.length : Int) - 1)
      = (slot h buf.length 1 : Nat) := by
    have := land_slot_succ hpow hh (show 0 < buf.length by omega)
    rwa [slot_zero hh] at this
  have htail : slot (slot h buf.length 1) buf.length s.length
      = slot h buf.length (s.length + 1) := by
    rw [slot_add hh (by omega), Nat.add_comm]
  simp only [canon, List.length_set, htail] at hsh
  simp only [Deque.PopFront, canon, List.length_cons, Nat.cast_add, Nat.cast_one, hcnt,
    if_false, index_nat _ _ hh, assign_nat _ _ hh, onPanic_ok, bind, Except.bind, h0,
    Deque.next, Deque.bufLen, List.length_set, hnext, add_sub_cancel_right, hsh,
    List.getElem?_cons_zero, Option.getD_some, pure, Except.pure]

/-- PopBack on a deque holding s ++ [x] returns x and leaves a deque holding s. -/
theorem abs_popBack {q : Deque α} {s : List (Option α)} {x : Option α}
    (hA : Abs q (s ++ [x])) : ∃ q', q.PopBack = .ok (x, q') ∧ Abs q' s := by
  obtain ⟨buf, h, m, rfl, hG⟩ := abs_unpack hA
  have hlen := hG.len
  simp only [List.length_append, List.length_singleton] at hlen
  have hpos : 0 < buf.length := by omega
  have hh : h < buf.length := by have := hG.head; omega
  obtain ⟨k, hk, hpow⟩ := good_pow hG hpos
  have hl := hG.elems s.length (by simp)
  rw [List.getElem?_append_right (le_refl _)] at hl
  simp only [Nat.sub_self, List.getElem?_cons_zero] at hl
  have ht := slot_lt hh (show s.length ≤ buf.length by omega)
  have hG' : Good (buf.set (slot h buf.length s.length) none) h m s := by
    refine ⟨?_, ?_, ?_, hG.minCap, ?_, ?_⟩
    · left; simpa using hh
    · simp only [List.length_set]; omega
    · simpa using hG.cap
    · simpa using hG.alloc
    · intro i hi
      simp only [List.length_set]
      have e1 : (s ++ [x])[i]? = s[i]? := List.getElem?_append_left hi
      rw [← e1, ← hG.elems i (by simp; omega)]
      exact List.getElem?_set_ne (slot_ne hi (by omega))
  obtain ⟨q', hsh, hA'⟩ := abs_shrinkIfExcess (abs_canon hG')
  refine ⟨q', ?_, hA'⟩
  have hcnt : ¬ ((s.length : Int) + 1 ≤ 0) := by omega
  have hprev := land_slot_pred hpow hh (show s.length < buf.length by omega)
  simp only [canon, List.length_set] at hsh
  simp only [Deque.PopBack, canon, List.length_append, List.length_singleton, Nat.cast_add,
    Nat.cast_one, hcnt, if_false, Deque.prev, Deque.bufLen, hprev, index_nat _ _ ht,
    assign_nat _ _ ht, onPanic_ok, bind, Except.bind, hl, List.length_set,
    add_sub_cancel_right, hsh, Option.getD_some, pure, Except.pure]

/-- The loop of Clear, entered at logical index j of a deque with n < L live
elements, ends without a fault and has set the slots of indices j .. n-1 to
nil. -/
theorem clearLoop_ok {L k hd n : Nat} (hL : L = 2 ^ k) (hh : hd < L) (hn : n < L)
    (H C m : Int) :
    ∀ (d j fuel : Nat) (b : List (Option α)), b.length = L → j + d = n → d ≤ fuel →
      ∃ b', clearLoop ((L : Int) - 1) fuel (slot hd L j : Nat)
          (⟨b, H, (slot hd L n : Nat), C, m⟩ : Deque α)
            = .ok ⟨b', H, (slot hd L n : Nat), C, m⟩ ∧ b'.length = L ∧
        (∀ p : Nat, b[p]? = some none → b'[p]? = some none) ∧
        (∀ i : Nat, j ≤ i → i < n → b'[slot hd L i]? = some none) := by
  intro d
  induction d with
  | zero =>
    intro j fuel b hb hj _
    have hjn : j = n := by omega
    subst hjn
    refine ⟨b, ?_, hb, fun _ hp => hp, fun i h1 h2 => absurd h1 (by omega)⟩
    cases fuel <;> simp [clearLoop]
  | succ d ih =>
    intro j fuel b hb hj hfuel
    obtain ⟨f, rfl⟩ : ∃ f, fuel = f + 1 := ⟨fuel - 1, by omega⟩
    have hjn : j < n := by omega
    have hne : ((slot hd L j : Nat) : Int) ≠ ((slot hd L n : Nat) : Int) := by
      have := slot_ne (h := hd) (L := L) hjn (by omega)
      omega
    have hsl : slot hd L j < b.length := by rw [hb]; exact slot_lt hh (by omega)
    obtain ⟨b', h1, h2, h3, h4⟩ := ih (j + 1) f (b.set (slot hd L j) none)
      (by simp [hb]) (by omega) (by omega)
    refine ⟨b', ?_, h2, ?_, ?_⟩
    · simp only [clearLoop, hne, ne_eq, not_false_eq_true, if_true, assign_nat _ _ hsl,
        onPanic_ok, bind, Except.bind, land_slot_succ hL hh (show j < L by omega)]
      exact h1
    · intro p hp
      apply h3
      rw [List.getElem?_set]
      split_ifs with e1 <;> first | rfl | exact hp
    · intro i hi1 hi2
      rcases Nat.eq_or_lt_of_le hi1 with e | e
      · subst e
        exact h3 _ (List.getElem?_set_self hsl)
      · exact h4 i (by omega) hi2

/-- Clear returns, leaves the empty sequence and keeps buffer length and
minimum capacity. -/
theorem abs_clear {q : Deque α} {s : List (Option α)} (hA : Abs q s) :
    ∃ q', q.Clear = .ok q' ∧ Abs q' [] ∧ q'.buf.length = q.buf.length ∧
      q'.minCap = q.minCap := by
  obtain ⟨buf, h, m, rfl, hG⟩ := abs_unpack hA
  have hlen := hG.len
  -- the loop returns some buffer of the same length
  obtain ⟨b', hloop, hb'⟩ : ∃ b', clearLoop ((buf.length : Int) - 1) (buf.length + 1) (h : Int)
      (canon buf h s.length m) = .ok ⟨b', h, (slot h buf.length s.length : Nat), s.length, m⟩
        ∧ b'.length = buf.length := by
    by_cases hfull : s.length < buf.length
    · have hh : h < buf.length := by have := hG.head; omega
      obtain ⟨k, hk, hpow⟩ := good_pow hG (by omega)
      obtain ⟨b', h1, h2, -, -⟩ := clearLoop_ok (α := α) hpow hh hfull (h : Int) (s.length : Int) m
        s.length 0 (buf.length + 1) buf rfl (by omega) (by omega)
      rw [slot_zero hh] at h1
      exact ⟨b', h1, h2⟩
    · have hsl : s.length = buf.length := by omega
      have ht : slot h buf.length s.length = h := by
        rw [hsl]; unfold slot; rw [if_neg (by have := hG.head; omega)]; omega
      refine ⟨buf, ?_, rfl⟩
      simp only [canon, ht]
      simp [clearLoop]
  refine ⟨⟨b', 0, 0, 0, m⟩, ?_, ?_, hb', rfl⟩
  · have e : (canon buf h s.length m).bufLen = (buf.length : Int) := rfl
    have e2 : (canon buf h s.length m).buf.length = buf.length := rfl
    have e3 : (canon buf h s.length m).head = (h : Int) := rfl
    simp only [Deque.Clear, e, e2, e3, hloop, bind, Except.bind, pure, Except.pure]
  · have hG' : Good b' 0 m [] := by
      refine ⟨Or.inr rfl, by simp, by rw [hb']; exact hG.cap, hG.minCap,
        by rw [hb']; exact hG.alloc, fun i hi => absurd hi (by simp)⟩
    have := abs_canon hG'
    have e : slot 0 b'.length 0 = 0 := by unfold slot; split_ifs <;> omega
    simpa [canon, e] using this

/-! ### Rotate -/

/-- The truncated remainder of Go against the non-negative remainder. -/
theorem tmod_cases (n : Int) (C : Nat) (hC : 0 < C) :
    (0 ≤ Int.tmod n C ∧ Int.tmod n C < C ∧ n % (C : Int) = Int.tmod n C) ∨
      (Int.tmod n C < 0 ∧ -(C : Int) < Int.tmod n C ∧ n % (C : Int) = Int.tmod n C + C) := by
  cases n with
  | ofNat a =>
    left
    have e : Int.tmod (Int.ofNat a) (C : Int) = ((a % C : Nat) : Int) := rfl
    have hlt := Nat.mod_lt a hC
    rw [e]
    refine ⟨by omega, by omega, ?_⟩
    simp
  | negSucc a =>
    have e : Int.tmod (Int.negSucc a) (C : Int) = -(((a + 1) % C : Nat) : Int) := rfl
    have e2 : (Int.negSucc a) % (C : Int) = (C : Int) - 1 - ((a % C : Nat) : Int) := by
      rw [Int.negSucc_emod _ (by omega)]; simp
    have hlt := Nat.mod_lt a hC
    have e3 : (a + 1) % C = (a % C + 1) % C := (Nat.mod_add_mod a C 1).symm
    rw [e, e2, e3]
    rcases Nat.lt_or_ge (a % C + 1) C with h1 | h1
    · right
      rw [Nat.mod_eq_of_lt h1]
      refine ⟨by omega, by omega, by omega⟩
    · left
      have : a % C + 1 = C := by omega
      rw [this, Nat.mod_self]
      refine ⟨by simp, by omega, by omega⟩

theorem nat_mod_cases (x L : Nat) (hx : x < 2 * L) :
    x % L = if x < L then x else x - L := by
  split_ifs with h
  · exact Nat.mod_eq_of_lt h
  · rw [Nat.mod_eq_sub_mod (by omega), Nat.mod_eq_of_lt (by omega)]

/-- On a full buffer, moving the head by r slots is a rotation by r. -/
theorem slot_rot {h L r i : Nat} (hh : h < L) (hr : r < L) (hi : i < L) :
    slot ((h + r) % L) L i = slot h L ((i + r) % L) := by
  rw [nat_mod_cases (h + r) L (by omega), nat_mod_cases (i + r) L (by omega)]
  unfold slot; split_ifs <;> omega

/-- One iteration of the forward loop moves the front element to the back. -/
theorem rotateFwd_step {buf t : List (Option α)} {x : Option α} {h : Nat} {m : Int}
    (hG : Good buf h m (x :: t)) (hroom : t.length + 1 < buf.length) :
    ∃ buf', buf'.length = buf.length ∧ Good buf' (slot h buf.length 1) m (t ++ [x]) ∧
      ∀ k, rotateFwd ((buf.length : Int) - 1) (k + 1) (canon buf h (t.length + 1) m)
        = rotateFwd ((buf.length : Int) - 1) k
            (canon buf' (slot h buf.length 1) (t.length + 1) m) := by
  have hpos : 0 < buf.length := by omega
  have hh : h < buf.length := by have := hG.head; omega
  obtain ⟨k, hk, hpow⟩ := good_pow hG hpos
  have h0 := hG.elems 0 (by simp)
  rw [slot_zero hh] at h0
  simp only [List.getElem?_cons_zero] at h0
  have ht := slot_lt hh (show t.length + 1 ≤ buf.length by omega)
  have hn := slot_lt hh (show 1 ≤ buf.length by omega)
  have hth : slot h buf.length (t.length + 1) ≠ h := by
    have := slot_ne (h := h) (L := buf.length) (i := 0) (j := t.length + 1) (by omega)
      (by omega)
    rwa [slot_zero hh] at this
  refine ⟨(buf.set (slot h buf.length (t.length + 1)) x).set h none, by simp, ?_, ?_⟩
  · refine ⟨?_, ?_, ?_, hG.minCap, ?_, ?_⟩
    · left; simpa using hn
    · simp only [List.length_set, List.length_append, List.length_singleton]; omega
    · simpa using hG.cap
    · simpa using hG.alloc
    · intro i hi
      simp only [List.length_append, List.length_singleton] at hi
      simp only [List.length_set]
      rw [slot_add hh (by omega), Nat.add_comm 1 i]
      rcases Nat.lt_or_ge i t.length with hlt | hge
      · have e := hG.elems (i + 1) (by simp; omega)
        rw [List.getElem?_cons_succ] at e
        have hne1 : h ≠ slot h buf.length (i + 1) := by
          have := slot_ne (h := h) (L := buf.length) (i := 0) (j := i + 1) (by omega)
            (by omega)
          rw [slot_zero hh] at this
          exact fun e => this e.symm
        have hne2 : slot h buf.length (t.length + 1) ≠ slot h buf.length (i + 1) :=
          slot_ne (by omega) (by omega)
        rw [List.getElem?_set_ne hne1, List.getElem?_set_ne hne2, e,
          List.getElem?_append_left hlt]
      · have hi' : i = t.length := by omega
        subst hi'
        rw [List.getElem?_set_ne (fun e => hth e.symm), List.getElem?_set_self ht,
          List.getElem?_append_right (le_refl _)]
        simp
  · intro k'
    have hnext : Int.land ((h : Int) + 1) ((buf.length : Int) - 1)
        = (slot h buf.length 1 : Nat) := by
      have := land_slot_succ hpow hh (show 0 < buf.length by omega)
      rwa [slot_zero hh] at this
    have htl := land_slot_succ hpow hh (show t.length + 1 < buf.length by omega)
    have htail : slot (slot h buf.length 1) buf.length (t.length + 1)
        = slot h buf.length (t.length + 1 + 1) := by
      rw [slot_add hh (by omega), Nat.add_comm]
    have hh2 : h < (buf.set (slot h buf.length (t.length + 1)) x).length := by simpa using hh
    conv_lhs => rw [rotateFwd]
    simp only [canon, index_nat _ _ hh, assign_nat _ _ ht, assign_nat _ _ hh2, onPanic_ok,
      bind, Except.bind, h0, Option.getD_some, hnext, htl, List.length_set, htail]

/-- One iteration of the backward loop moves the back element to the front. -/
theorem rotateBack_step {buf t : List (Option α)} {x : Option α} {h : Nat} {m : Int}
    (hG : Good buf h m (t ++ [x])) (hroom : t.length + 1 < buf.length) :
    ∃ buf', buf'.length = buf.length ∧
      Good buf' (slot h buf.length (buf.length - 1)) m (x :: t) ∧
      ∀ k, rotateBack ((buf.length : Int) - 1) (k + 1) (canon buf h (t.length + 1) m)
        = rotateBack ((buf.length : Int) - 1) k
            (canon buf' (slot h buf.length (buf.length - 1)) (t.length + 1) m) := by
  have hpos : 0 < buf.length := by omega
  have hh : h < buf.length := by have := hG.head; omega
  obtain ⟨k, hk, hpow⟩ := good_pow hG hpos
  have hl := hG.elems t.length (by simp)
  rw [List.getElem?_append_right (le_refl _)] at hl
  simp only [Nat.sub_self, List.getElem?_cons_zero] at hl
  have ht := slot_lt hh (show t.length ≤ buf.length by omega)
  have hp := slot_lt hh (show buf.length - 1 ≤ buf.length by omega)
  have hpt : slot h buf.length (buf.length - 1) ≠ slot h buf.length t.length :=
    slot_ne (by omega) (by omega)
  refine ⟨(buf.set (slot h buf.length (buf.length - 1)) x).set (slot h buf.length t.length)
    none, by simp, ?_, ?_⟩
  · refine ⟨?_, ?_, ?_, hG.minCap, ?_, ?_⟩
    · left; simpa using hp
    · simp only [List.length_set, List.length_cons]; omega
    · simpa using hG.cap
    · simpa using hG.alloc
    · intro i hi
      simp only [List.length_cons] at hi
      simp only [List.length_set]
      cases i with
      | zero =>
        rw [slot_zero hp, List.getElem?_set_ne (fun e => hpt e.symm),
          List.getElem?_set_self hp]
        simp
      | succ j =>
        have hj : j < t.length := by omega
        have e := hG.elems j (by simp; omega)
        rw [List.getElem?_append_left hj] at e
        have hne1 : slot h buf.length t.length ≠ slot h buf.length j :=
          slot_ne hj (by omega)
        have hne2 : slot h buf.length (buf.length - 1) ≠ slot h buf.length j :=
          slot_ne (by omega) (by omega)
        rw [slot_pred_succ hh (by omega), List.getElem?_set_ne hne1,
          List.getElem?_set_ne hne2, e, List.getElem?_cons_succ]
  · intro k'
    have hprev := land_slot_pred hpow hh (show t.length < buf.length by omega)
    have htail : slot (slot h buf.length (buf.length - 1)) buf.length (t.length + 1)
        = slot h buf.length t.length := slot_pred_succ hh (by omega)
    have ht2 : slot h buf.length t.length
        < (buf.set (slot h buf.length (buf.length - 1)) x).length := by simpa using ht
    conv_lhs => rw [rotateBack]
    simp only [canon, land_head_pred hpow hh, hprev, index_nat _ _ ht, assign_nat _ _ hp,
      assign_nat _ _ ht2, onPanic_ok, bind, Except.bind, hl, Option.getD_some,
      List.length_set, htail]

/-- The forward loop returns and rotates the sequence by the number of its
iterations. -/
theorem rotateFwd_ok {L : Nat} {m : Int} :
    ∀ (k : Nat) (buf s : List (Option α)) (h : Nat), buf.length = L → Good buf h m s →
      0 < s.length → s.length < L →
      ∃ buf' h', rotateFwd ((L : Int) - 1) k (canon buf h s.length m)
          = .ok (canon buf' h' s.length m) ∧ buf'.length = L ∧
        Good buf' h' m (s.rotate k) := by
  intro k
  induction k with
  | zero =>
    intro buf s h _ hG _ _
    exact ⟨buf, h, rfl, ‹_›, by simpa using hG⟩
  | succ k ih =>
    intro buf s h hb hG hpos hroom
    cases s with
    | nil => simp at hpos
    | cons x t =>
      simp only [List.length_cons] at hroom
      subst hb
      obtain ⟨buf₁, hb₁, hG₁, hstep⟩ := rotateFwd_step hG hroom
      obtain ⟨buf', h', hrun, hb', hG'⟩ := ih buf₁ (t ++ [x]) _ hb₁ hG₁ (by simp)
        (by simp; omega)
      refine ⟨buf', h', ?_, hb', ?_⟩
      · simp only [List.length_cons]
        rw [hstep k]
        simpa using hrun
      · rw [List.rotate_cons_succ]; exact hG'

/-- The backward loop returns; rotating its result forward by the number of
iterations gives the sequence back. -/
theorem rotateBack_ok {L : Nat} {m : Int} :
    ∀ (k : Nat) (buf s : List (Option α)) (h : Nat), buf.length = L → Good buf h m s →
      0 < s.length → s.length < L →
      ∃ buf' h' s', rotateBack ((L : Int) - 1) k (canon buf h s.length m)
          = .ok (canon buf' h' s.length m) ∧ buf'.length = L ∧
        Good buf' h' m s' ∧ s'.rotate k = s := by
  intro k
  induction k with
  | zero =>
    intro buf s h _ hG _ _
    exact ⟨buf, h, s, rfl, ‹_›, hG, by simp⟩
  | succ k ih =>
    intro buf s h hb hG hpos hroom
    have hne : s ≠ [] := by intro e; simp [e] at hpos
    obtain ⟨t, x, rfl⟩ : ∃ t x, s = t ++ [x] :=
      ⟨s.dropLast, s.getLast hne, (List.dropLast_append_getLast hne).symm⟩
    simp only [List.length_append, List.length_singleton] at hroom
    subst hb
    obtain ⟨buf₁, hb₁, hG₁, hstep⟩ := rotateBack_step hG hroom
    obtain ⟨buf', h', s', hrun, hb', hG', hrot⟩ := ih buf₁ (x :: t) _ hb₁ hG₁ (by simp)
      (by simp; omega)
    refine ⟨buf', h', s', ?_, hb', hG', ?_⟩
    · simp only [List.length_append, List.length_singleton]
      rw [hstep k]
      simpa using hrun
    · rw [← List.rotate_rotate, hrot, List.rotate_cons_succ, List.rotate_zero]

theorem abs_canon_of_length {buf s : List (Option α)} {h c : Nat} {m : Int}
    (hG : Good buf h m s) (hc : s.length = c) : Abs (canon buf h c m) s := by
  subst hc; exact abs_canon hG

/-- Rotate returns and leaves the sequence rotated to the left by n mod Len
positions, with the same buffer length and minimum capacity. -/
theorem abs_rotate {q : Deque α} {s : List (Option α)} (hA : Abs q s) (n : Int) :
    ∃ q', q.Rotate n = .ok q' ∧ Abs q' (s.rotate (n % (s.length : Int)).toNat) ∧
      q'.buf.length = q.buf.length ∧ q'.minCap = q.minCap := by
  obtain ⟨buf, h, m, rfl, hG⟩ := abs_unpack hA
  by_cases hc1 : s.length ≤ 1
  · -- fewer than two elements: nothing moves
    have hR : (canon buf h s.length m).Rotate n = .ok (canon buf h s.length m) := by
      have : (canon buf h s.length m).count ≤ 1 := by simp only [canon]; omega
      simp only [Deque.Rotate, this, if_true]
    have hs : s.rotate (n % (s.length : Int)).toNat = s := by
      rcases Nat.eq_zero_or_pos s.length with h0 | h0
      · have : s = [] := List.length_eq_zero.mp h0
        subst this; simp
      · have h1 : s.length = 1 := by omega
        rw [h1]; simp
    exact ⟨_, hR, by rw [hs]; exact hA, rfl, rfl⟩
  · have hc2 : 2 ≤ s.length := by omega
    have hlen := hG.len
    have hpos : 0 < buf.length := by omega
    have hh : h < buf.length := by have := hG.head; omega
    obtain ⟨k, hk, hpow⟩ := good_pow hG hpos
    have hcnt : ¬ (canon buf h s.length m).count ≤ 1 := by simp only [canon]; omega
    have hcnt' : ¬ (s.length : Int) ≤ 1 := by omega
    have hemod0 := Int.emod_nonneg n (show (s.length : Int) ≠ 0 by omega)
    have hemodlt := Int.emod_lt_of_pos n (show (0 : Int) < s.length by omega)
    obtain ⟨r, hr⟩ := Int.eq_ofNat_of_zero_le hemod0
    have hrlt : r < s.length := by omega
    have hrr : (n % (s.length : Int)).toNat = r := by omega
    rw [hrr]
    by_cases hz : Int.tmod n (s.length : Int) = 0
    · have hR : (canon buf h s.length m).Rotate n = .ok (canon buf h s.length m) := by
        have e : (canon buf h s.length m).count = (s.length : Int) := rfl
        simp only [Deque.Rotate, hcnt, hcnt', if_false, e, hz, if_true]
      have hr0 : r = 0 := by
        rcases tmod_cases n s.length (by omega) with ⟨-, -, e⟩ | ⟨e, -, -⟩ <;> omega
      exact ⟨_, hR, by rw [hr0, List.rotate_zero]; exact hA, rfl, rfl⟩
    · by_cases hfull : s.length = buf.length
      · -- full buffer: only the cursors move
        have hht : slot h buf.length s.length = h := by
          rw [hfull]; unfold slot; rw [if_neg (by omega)]; omega
        have hmod : ((h : Int) + Int.tmod n (s.length : Int)) % (buf.length : Int)
            = (((h + r) % buf.length : Nat) : Int) := by
          rw [Int.ofNat_emod, Nat.cast_add, ← hr, hfull]
          rcases tmod_cases n buf.length hpos with ⟨-, -, e⟩ | ⟨-, -, e⟩
          · rw [e]
          · rw [e, ← Int.add_assoc, Int.add_emod_self]
        have h2lt : (h + r) % buf.length < buf.length := Nat.mod_lt _ hpos
        have hG' : Good buf ((h + r) % buf.length) m (s.rotate r) := by
          refine ⟨Or.inl h2lt, by simpa using hlen, hG.cap, hG.minCap, hG.alloc, ?_⟩
          intro i hi
          rw [List.length_rotate] at hi
          rw [List.getElem?_rotate hi, hfull, slot_rot hh (by omega) (by omega)]
          exact hfull ▸ hG.elems ((i + r) % s.length) (Nat.mod_lt _ (by omega))
        refine ⟨canon buf ((h + r) % buf.length) s.length m, ?_,
          abs_canon_of_length hG' (List.length_rotate _ _), rfl, rfl⟩
        have e : (canon buf h s.length m).count = (s.length : Int) := rfl
        have e2 : (canon buf h s.length m).head = (canon buf h s.length m).tail := by
          simp only [canon, hht]
        have ht2 : slot ((h + r) % buf.length) buf.length s.length = (h + r) % buf.length := by
          rw [hfull]; unfold slot; rw [if_neg (by omega)]; omega
        simp only [Deque.Rotate, hcnt, hcnt', if_false, e, hz, e2, if_true]
        simp only [canon, hht, Deque.bufLen, land_mask_nat _ hpow, hmod, ht2]
      · -- free slots: the elements move one at a time
        have hroom : s.length < buf.length := by omega
        have hne : ¬ (canon buf h s.length m).head = (canon buf h s.length m).tail := by
          have := slot_ne (h := h) (L := buf.length) (i := 0) (j := s.length) (by omega)
            (by omega)
          rw [slot_zero hh] at this
          simp only [canon]
          omega
        have e : (canon buf h s.length m).count = (s.length : Int) := rfl
        have eL : (canon buf h s.length m).bufLen = (buf.length : Int) := rfl
        rcases tmod_cases n s.length (by omega) with ⟨t0, t1, t2⟩ | ⟨t0, t1, t2⟩
        · -- front to back
          have hk' : (Int.tmod n (s.length : Int)).toNat = r := by omega
          obtain ⟨buf', h', hrun, hb', hG'⟩ := rotateFwd_ok (m := m) r buf s h rfl hG
            (by omega) hroom
          refine ⟨canon buf' h' s.length m, ?_,
            abs_canon_of_length hG' (List.length_rotate _ _), hb', rfl⟩
          have hneg : ¬ Int.tmod n (s.length : Int) < 0 := by omega
          simp only [Deque.Rotate, hcnt, hcnt', if_false, e, hz, hne, hneg, eL, hk']
          exact hrun
        · -- back to front
          obtain ⟨j, hj⟩ : ∃ j : Nat, (-(Int.tmod n (s.length : Int))).toNat = j := ⟨_, rfl⟩
          have hjr : j + r = s.length := by omega
          obtain ⟨buf', h', s', hrun, hb', hG', hrot⟩ := rotateBack_ok (m := m) j buf s h rfl
            hG (by omega) hroom
          have hs' : s' = s.rotate r := by
            apply List.rotate_injective j
            show s'.rotate j = (s.rotate r).rotate j
            rw [hrot, List.rotate_rotate, Nat.add_comm, hjr, List.rotate_length]
          subst hs'
          refine ⟨canon buf' h' s.length m, ?_,
            abs_canon_of_length hG' (List.length_rotate _ _), hb', rfl⟩
          simp only [Deque.Rotate, hcnt, hcnt', if_false, e, hz, hne, t0, if_true, eL, hj]
          exact hrun

/-- SetMinCapacity keeps buffer and cursors; the new minimum is 16 or a larger
power of two. -/
theorem shlOne_pow (e : Nat) (h : shlOne e > minCapacity) :
    ∃ k : Nat, 4 ≤ k ∧ shlOne e = 2 ^ k := by
  rcases Nat.lt_or_ge e 63 with h1 | h1
  · have hlt : (2 : Int) ^ e < 2 ^ 63 := pow_lt_pow_right₀ (by norm_num) h1
    have hpos : (0 : Int) < 2 ^ e := by positivity
    have hval : shlOne e = 2 ^ e := by
      unfold shlOne wrapInt
      rw [Int.emod_eq_of_lt (by omega) (by omega)]
      omega
    refine ⟨e, ?_, hval⟩
    rcases Nat.lt_or_ge e 4 with h4 | h4
    · exfalso
      rw [hval] at h
      have : (2 : Int) ^ e ≤ 2 ^ 3 := pow_le_pow_right₀ (by norm_num) (by omega)
      simp only [minCapacity] at h
      omega
    · exact h4
  · exfalso
    rcases Nat.eq_or_lt_of_le h1 with h2 | h2
    · subst h2
      have : shlOne 63 = -(2 ^ 63) := by unfold shlOne wrapInt; norm_num
      rw [this] at h
      simp only [minCapacity] at h
      omega
    · have hsplit : (2 : Int) ^ e = 2 ^ (e - 64) * 2 ^ 64 := by
        rw [← pow_add]; congr 1; omega
      have : shlOne e = 0 := by
        unfold shlOne wrapInt
        rw [hsplit, Int.add_comm, Int.add_mul_emod_self]
        norm_num
      rw [this] at h
      simp only [minCapacity] at h
      omega

theorem abs_setMinCapacity {q : Deque α} {s : List (Option α)} (hA : Abs q s) (e : Nat) :
    Abs (q.SetMinCapacity e) s := by
  obtain ⟨hI, hc, hs⟩ := hA
  have hmin : ∃ k : Nat, 4 ≤ k ∧ (q.SetMinCapacity e).minCap = 2 ^ k := by
    unfold Deque.SetMinCapacity
    split_ifs with h
    · exact shlOne_pow e h
    · exact ⟨4, le_refl _, by simp [minCapacity]⟩
  have hsame : (q.SetMinCapacity e).buf = q.buf ∧ (q.SetMinCapacity e).head = q.head ∧
      (q.SetMinCapacity e).tail = q.tail ∧ (q.SetMinCapacity e).count = q.count := by
    unfold Deque.SetMinCapacity
    split_ifs <;> exact ⟨rfl, rfl, rfl, rfl⟩
  obtain ⟨e1, e2, e3, e4⟩ := hsame
  refine ⟨⟨?_, ?_, ?_, ?_, ?_, ?_, Or.inr hmin, ?_⟩, ?_, ?_⟩
  · rw [e1]; exact hI.cap
  · rw [e2]; exact hI.head_nonneg
  · rw [e1, e2]; exact hI.head_lt
  · rw [e4]; exact hI.count_nonneg
  · rw [e1, e4]; exact hI.count_le
  · rw [e1, e2, e3, e4]; exact hI.tail_eq
  · intro _
    obtain ⟨k, -, hk⟩ := hmin
    rw [hk]; positivity
  · rw [e4]; exact hc
  · rw [e1, e2]; exact hs

theorem abs_zero : Abs (zeroValue : Deque α) [] := by
  refine ⟨⟨Or.inl rfl, le_refl _, Or.inr rfl, le_refl _, le_refl _, ?_, Or.inl rfl, ?_⟩,
    rfl, ?_⟩
  · simp [zeroValue, slot]
  · intro h; exact absurd rfl h
  · intro i hi; simp at hi

/-- With no buffer yet and a minimum capacity above the limit of make, the
first allocation panics and leaves the deque as it was. -/
theorem growIfFull_unfit {q : Deque α} (h0 : q.bufLen = 0) (hbig : maxSliceLen < q.minCap) :
    q.growIfFull = .error (Fault.runtime, q) := by
  have hpos : (0 : Int) < maxSliceLen := by decide
  have hne : ¬ q.minCap = 0 := by omega
  have hlen : q.buf.length = 0 := by simp only [Deque.bufLen] at h0; omega
  have hc : ¬ (0 ≤ q.minCap ∧ (q.minCap ≤ maxSliceLen ∨ q.minCap ≤ 2 * ((0 : Nat) : Int))) := by
    omega
  simp only [Deque.growIfFull, h0, if_true, hne, if_false, hlen, make, hc, onPanic, bind,
    Except.bind]

theorem pushBack_unfit {q : Deque α} (v : Option α) (h0 : q.bufLen = 0)
    (hbig : maxSliceLen < q.minCap) : q.PushBack v = .error (Fault.runtime, q) := by
  simp only [Deque.PushBack, growIfFull_unfit h0 hbig, bind, Except.bind]

theorem pushFront_unfit {q : Deque α} (v : Option α) (h0 : q.bufLen = 0)
    (hbig : maxSliceLen < q.minCap) : q.PushFront v = .error (Fault.runtime, q) := by
  simp only [Deque.PushFront, growIfFull_unfit h0 hbig, bind, Except.bind]

/-- A push that returns found a buffer, or a minimum capacity within the
limit of make. -/
theorem fits_of_pushBack {q q' : Deque α} {v : Option α} (h : q.PushBack v = .ok q') :
    q.bufLen = 0 → q.minCap ≤ maxSliceLen := by
  intro h0
  by_contra hbig
  rw [pushBack_unfit v h0 (by omega)] at h
  cases h

theorem fits_of_pushFront {q q' : Deque α} {v : Option α} (h : q.PushFront v = .ok q') :
    q.bufLen = 0 → q.minCap ≤ maxSliceLen := by
  intro h0
  by_contra hbig
  rw [pushFront_unfit v h0 (by omega)] at h
  cases h

/-- A deque that holds an element has a buffer. -/
theorem abs_bufLen_ne {q : Deque α} {s : List (Option α)} (hA : Abs q s) (hs : 0 < s.length) :
    ¬ q.bufLen = 0 := by
  have h1 := hA.1.count_le
  have h2 := hA.2.1
  simp only [Deque.bufLen]
  omega

/-- Every reachable state is well formed and holds some sequence. -/
theorem reachable_abs {q : Deque α} (hR : Reachable q) : ∃ s, Abs q s := by
  induction hR with
  | zero => exact ⟨[], abs_zero⟩
  | pushBack v _ hop ih =>
    obtain ⟨s, hA⟩ := ih
    obtain ⟨q', h1, h2⟩ := abs_pushBack hA (fits_of_pushBack hop) v
    rw [hop] at h1; cases h1
    exact ⟨_, h2⟩
  | pushFront v _ hop ih =>
    obtain ⟨s, hA⟩ := ih
    obtain ⟨q', h1, h2⟩ := abs_pushFront hA (fits_of_pushFront hop) v
    rw [hop] at h1; cases h1
    exact ⟨_, h2⟩
  | @popFront q₀ q₁ v _ hop ih =>
    obtain ⟨s, hA⟩ := ih
    cases s with
    | nil =>
      have hc : q₀.count ≤ 0 := by rw [hA.2.1]; simp
      simp [Deque.PopFront, hc] at hop
    | cons x t =>
      obtain ⟨q', h1, h2⟩ := abs_popFront hA
      rw [hop] at h1; cases h1
      exact ⟨_, h2⟩
  | @popBack q₀ q₁ v _ hop ih =>
    obtain ⟨s, hA⟩ := ih
    rcases List.eq_nil_or_concat s with rfl | ⟨t, x, rfl⟩
    · have hc : q₀.count ≤ 0 := by rw [hA.2.1]; simp
      simp [Deque.PopBack, hc] at hop
    · rw [List.concat_eq_append] at hA
      obtain ⟨q', h1, h2⟩ := abs_popBack hA
      rw [hop] at h1; cases h1
      exact ⟨_, h2⟩
  | clear _ hop ih =>
    obtain ⟨s, hA⟩ := ih
    obtain ⟨q', h1, h2, -, -⟩ := abs_clear hA
    rw [hop] at h1; cases h1
    exact ⟨_, h2⟩
  | rotate n _ hop ih =>
    obtain ⟨s, hA⟩ := ih
    obtain ⟨q', h1, h2, -, -⟩ := abs_rotate hA n
    rw [hop] at h1; cases h1
    exact ⟨_, h2⟩
  | setMinCapacity e _ ih =>
    obtain ⟨s, hA⟩ := ih
    exact ⟨s, abs_setMinCapacity hA e⟩

/-! ### The logical sequence of a reachable state -/

theorem abs_isSeq {q : Deque α} {s : List (Option α)} (hA : Abs q s) : IsSeq q s :=
  ⟨hA.2.1, fun i hi => abs_at hA i hi⟩

theorem isSeq_unique {q : Deque α} {s t : List (Option α)} (hs : IsSeq q s) (ht : IsSeq q t) :
    s = t := by
  have hlen : s.length = t.length := by
    have h1 := hs.1; have h2 := ht.1; omega
  apply List.ext_getElem hlen
  intro i h1 h2
  have e1 := hs.2 i h1
  have e2 := ht.2 i h2
  rw [e1] at e2
  injection e2

/-- The sequence read through At on a reachable deque is the one it holds. -/
theorem reachable_isSeq_abs {q : Deque α} {s : List (Option α)} (hR : Reachable q)
    (hs : IsSeq q s) : Abs q s := by
  obtain ⟨t, hA⟩ := reachable_abs hR
  rw [isSeq_unique hs (abs_isSeq hA)]
  exact hA

theorem abs_front {q : Deque α} {s : List (Option α)} {x : Option α} (hA : Abs q (x :: s)) :
    q.Front = .ok x := by
  obtain ⟨buf, h, m, rfl, hG⟩ := abs_unpack hA
  have hlen := hG.len
  simp only [List.length_cons] at hlen
  have hh : h < buf.length := by have := hG.head; omega
  have h0 := hG.elems 0 (by simp)
  rw [slot_zero hh] at h0
  have hcnt : ¬ ((s.length : Int) + 1 ≤ 0) := by omega
  simp only [Deque.Front, canon, List.length_cons, Nat.cast_add, Nat.cast_one, hcnt, if_false,
    index_nat _ _ hh, h0, List.getElem?_cons_zero, Option.getD_some]

theorem abs_back {q : Deque α} {s : List (Option α)} {x : Option α} (hA : Abs q (s ++ [x])) :
    q.Back = .ok x := by
  obtain ⟨buf, h, m, rfl, hG⟩ := abs_unpack hA
  have hlen := hG.len
  simp only [List.length_append, List.length_singleton] at hlen
  have hpos : 0 < buf.length := by omega
  have hh : h < buf.length := by have := hG.head; omega
  obtain ⟨k, hk, hpow⟩ := good_pow hG hpos
  have hl := hG.elems s.length (by simp)
  rw [List.getElem?_append_right (le_refl _)] at hl
  simp only [Nat.sub_self, List.getElem?_cons_zero] at hl
  have ht := slot_lt hh (show s.length ≤ buf.length by omega)
  have hcnt : ¬ ((s.length : Int) + 1 ≤ 0) := by omega
  have hprev := land_slot_pred hpow hh (show s.length < buf.length by omega)
  simp only [Deque.Back, canon, List.length_append, List.length_singleton, Nat.cast_add,
    Nat.cast_one, hcnt, if_false, Deque.prev, Deque.bufLen, hprev, index_nat _ _ ht, hl,
    Option.getD_some]

theorem pushBackAll_abs (xs : List (Option α)) :
    ∀ (q : Deque α) (s : List (Option α)), Abs q s →
      (q.bufLen = 0 → q.minCap ≤ maxSliceLen) →
      ∃ q', pushBackAll q xs = .ok q' ∧ Abs q' (s ++ xs) := by
  induction xs with
  | nil => intro q s hA _; exact ⟨q, rfl, by simpa using hA⟩
  | cons x xs ih =>
    intro q s hA hfit
    obtain ⟨q₁, h1, hA₁⟩ := abs_pushBack hA hfit x
    obtain ⟨q', h2, hA'⟩ := ih q₁ (s ++ [x]) hA₁
      (fun h => absurd h (abs_bufLen_ne hA₁ (by simp)))
    refine ⟨q', ?_, by simpa using hA'⟩
    simp only [pushBackAll, h1, bind, Except.bind]
    exact h2

theorem popFrontN_abs (n : Nat) :
    ∀ (q : Deque α) (s : List (Option α)), Abs q s → n ≤ s.length →
      ∃ q', popFrontN n q = .ok (s.take n, q') ∧ Abs q' (s.drop n) := by
  induction n with
  | zero => intro q s hA _; exact ⟨q, rfl, by simpa using hA⟩
  | succ n ih =>
    intro q s hA hn
    cases s with
    | nil => simp at hn
    | cons x t =>
      obtain ⟨q₁, h1, hA₁⟩ := abs_popFront hA
      obtain ⟨q', h2, hA'⟩ := ih q₁ t hA₁ (by simpa using hn)
      refine ⟨q', ?_, by simpa using hA'⟩
      simp only [popFrontN, h1, h2, bind, Except.bind, pure, Except.pure, List.take_succ_cons]

theorem popBackN_abs (t : List (Option α)) :
    ∀ (q : Deque α) (s : List (Option α)), Abs q (s ++ t) →
      ∃ q', popBackN t.length q = .ok (t.reverse, q') ∧ Abs q' s := by
  induction t using List.reverseRecOn with
  | nil => intro q s hA; exact ⟨q, rfl, by simpa using hA⟩
  | append_singleton t x ih =>
    intro q s hA
    rw [← List.append_assoc] at hA
    obtain ⟨q₁, h1, hA₁⟩ := abs_popBack hA
    obtain ⟨q', h2, hA'⟩ := ih q₁ s hA₁
    refine ⟨q', ?_, hA'⟩
    simp only [List.length_append, List.length_singleton, popBackN, h1, h2, bind, Except.bind,
      pure, Except.pure, List.reverse_append, List.reverse_cons, List.reverse_nil,
      List.nil_append, List.singleton_append]

theorem sample1_pushed : (zeroValue : Deque Nat).PushBack (some 1) = .ok sample1 := rfl

theorem sample3_pushed :
    pushBackAll (zeroValue : Deque Nat) [some 1, some 2, some 3] = .ok sample3 := rfl

theorem sample1_reachable : Reachable sample1 :=
  Reachable.pushBack (some 1) Reachable.zero sample1_pushed

theorem sample2_reachable :
    Reachable (⟨[some 1, some 2] ++ List.replicate 14 none, 0, 2, 2, 16⟩ : Deque Nat) :=
  Reachable.pushBack (some 2) sample1_reachable (by rfl)

theorem sample3_reachable : Reachable sample3 :=
  Reachable.pushBack (some 3) sample2_reachable (by rfl)

theorem zeroValue_fits : (zeroValue : Deque α).bufLen = 0 →
    (zeroValue : Deque α).minCap ≤ maxSliceLen := by
  intro _
  show (0 : Int) ≤ maxSliceLen
  decide

theorem sample1_abs : Abs sample1 [some 1] := by
  obtain ⟨q', h1, h2⟩ := abs_pushBack (abs_zero (α := Nat)) zeroValue_fits (some 1)
  rw [sample1_pushed] at h1; cases h1
  exact h2

theorem sample3_abs : Abs sample3 [some 1, some 2, some 3] := by
  obtain ⟨q', h1, h2⟩ := pushBackAll_abs [some 1, some 2, some 3] (zeroValue : Deque Nat) []
    abs_zero zeroValue_fits
  rw [sample3_pushed] at h1; cases h1
  exact h2

theorem isSeq_zero : IsSeq (zeroValue : Deque α) [] := abs_isSeq abs_zero

theorem sampleBig_set : (zeroValue : Deque Nat).SetMinCapacity 62 = sampleBig := by decide

theorem sampleBig_reachable : Reachable sampleBig :=
  sampleBig_set ▸ Reachable.setMinCapacity 62 Reachable.zero

theorem sampleBig_abs : Abs sampleBig [] :=
  sampleBig_set ▸ abs_setMinCapacity abs_zero 62

end Lemmas

/-! ## The properties -/

section Claims

variable {α : Type}

/-- C1 (FIFO): starting from the zero value, PushBack on each element of xs in
order and then len(xs) calls of PopFront all return, the pops yield exactly xs
in the same order, and Len() is 0 afterwards; xs is any finite list, so every
doubling and halving resize is covered. -/
theorem fifo_pushBack_popFront (xs : List (Option α)) :
    ∃ q q' : Deque α, pushBackAll zeroValue xs = .ok q ∧
      popFrontN xs.length q = .ok (xs, q') ∧ q'.Len = 0 := by
  obtain ⟨q, h1, hA⟩ := pushBackAll_abs xs (zeroValue : Deque α) [] abs_zero zeroValue_fits
  rw [List.nil_append] at hA
  obtain ⟨q', h2, hA'⟩ := popFrontN_abs xs.length q xs hA (le_refl _)
  rw [List.take_length] at h2
  rw [List.drop_length] at hA'
  exact ⟨q, q', h1, h2, by simpa [Deque.Len] using hA'.2.1⟩

/-- C2 (LIFO): starting from the zero value, PushBack on each element of xs in
order and then len(xs) calls of PopBack all return, the pops yield exactly the
reverse of xs, and Len() is 0 afterwards. -/
theorem lifo_pushBack_popBack (xs : List (Option α)) :
    ∃ q q' : Deque α, pushBackAll zeroValue xs = .ok q ∧
      popBackN xs.length q = .ok (xs.reverse, q') ∧ q'.Len = 0 := by
  obtain ⟨q, h1, hA⟩ := pushBackAll_abs xs (zeroValue : Deque α) [] abs_zero zeroValue_fits
  obtain ⟨q', h2, hA'⟩ := popBackN_abs xs q [] hA
  exact ⟨q, q', h1, h2, by simpa [Deque.Len] using hA'.2.1⟩

/-- C3, the claim as stated fails: the zero value after SetMinCapacity(62) is
reachable and holds the empty sequence, but PushBack(1) on it asks make for
2^62 slots, more than maxSliceLen = 2^44; the call panics (makeslice: len out
of range) and leaves the deque as it was, with nothing appended. -/
theorem pushBack_oversized_minCap :
    (zeroValue : Deque Nat).SetMinCapacity 62 = sampleBig ∧ Reachable sampleBig ∧
      IsSeq sampleBig [] ∧ sampleBig.bufLen = 0 ∧ maxSliceLen < sampleBig.minCap ∧
      sampleBig.PushBack (some 1) = .error (Fault.runtime, sampleBig) :=
  ⟨sampleBig_set, sampleBig_reachable, abs_isSeq sampleBig_abs, by decide, by decide,
    pushBack_unfit (some 1) (by decide) (by decide)⟩

/-- C3 as amended (PushBack appends): on a reachable deque with logical
sequence s that has a buffer already, or whose minimum capacity is at most
the largest length make accepts (maxSliceLen = 2^44 slots), PushBack(v)
returns a deque with Len() = |s| + 1, At(i) = s[i] for every i < |s| and
At(|s|) = v, whether or not the call allocates or doubles the buffer. -/
theorem pushBack_appends (q : Deque α) (s : List (Option α)) (v : Option α)
    (hR : Reachable q) (hs : IsSeq q s)
    (hfit : q.bufLen = 0 → q.minCap ≤ maxSliceLen) :
    ∃ q', q.PushBack v = .ok q' ∧ q'.Len = (s.length : Int) + 1 ∧
      (∀ (i : Nat) (h : i < s.length), q'.At (i : Int) = .ok s[i]) ∧
      q'.At (s.length : Int) = .ok v := by
  obtain ⟨q', h1, hA⟩ := abs_pushBack (reachable_isSeq_abs hR hs) hfit v
  refine ⟨q', h1, by simpa [Deque.Len] using hA.2.1, ?_, ?_⟩
  · intro i h
    rw [abs_at hA i (by simp; omega), List.getElem_append_left h]
  · rw [abs_at hA s.length (by simp)]
    simp

/-- Witness of C3 as amended: PushBack(4) on the deque holding 1, 2, 3. -/
theorem pushBack_appends_witness :
    Reachable sample3 ∧ IsSeq sample3 [some 1, some 2, some 3] ∧
      (sample3.bufLen = 0 → sample3.minCap ≤ maxSliceLen) ∧
      ∃ q', sample3.PushBack (some 4) = .ok q' ∧
        q'.Len = (([some 1, some 2, some 3] : List (Option Nat)).length : Int) + 1 ∧
        (∀ (i : Nat) (h : i < ([some 1, some 2, some 3] : List (Option Nat)).length),
          q'.At (i : Int) = .ok ([some 1, some 2, some 3] : List (Option Nat))[i]) ∧
        q'.At (([some 1, some 2, some 3] : List (Option Nat)).length : Int) = .ok (some 4) :=
  ⟨sample3_reachable, abs_isSeq sample3_abs, by decide,
    pushBack_appends sample3 _ (some 4) sample3_reachable (abs_isSeq sample3_abs) (by decide)⟩

/-- C4, the claim as stated fails: the zero value after SetMinCapacity(62) is
reachable and holds the empty sequence, but PushFront(1) on it asks make for
2^62 slots, more than maxSliceLen = 2^44; the call panics (makeslice: len out
of range) and leaves the deque as it was, with nothing prepended. -/
theorem pushFront_oversized_minCap :
    (zeroValue : Deque Nat).SetMinCapacity 62 = sampleBig ∧ Reachable sampleBig ∧
      IsSeq sampleBig [] ∧ sampleBig.bufLen = 0 ∧ maxSliceLen < sampleBig.minCap ∧
      sampleBig.PushFront (some 1) = .error (Fault.runtime, sampleBig) :=
  ⟨sampleBig_set, sampleBig_reachable, abs_isSeq sampleBig_abs, by decide, by decide,
    pushFront_unfit (some 1) (by decide) (by decide)⟩

/-- C4 as amended (PushFront prepends): on a reachable deque with logical
sequence s that has a buffer already, or whose minimum capacity is at most
the largest length make accepts (maxSliceLen = 2^44 slots), PushFront(v)
returns a deque with Len() = |s| + 1, At(0) = v and At(i+1) = s[i] for every
i < |s|, whether or not the call allocates or doubles the buffer. -/
theorem pushFront_prepends (q : Deque α) (s : List (Option α)) (v : Option α)
    (hR : Reachable q) (hs : IsSeq q s)
    (hfit : q.bufLen = 0 → q.minCap ≤ maxSliceLen) :
    ∃ q', q.PushFront v = .ok q' ∧ q'.Len = (s.length : Int) + 1 ∧
      q'.At 0 = .ok v ∧
      (∀ (i : Nat) (h : i < s.length), q'.At ((i : Int) + 1) = .ok s[i]) := by
  obtain ⟨q', h1, hA⟩ := abs_pushFront (reachable_isSeq_abs hR hs) hfit v
  refine ⟨q', h1, by simpa [Deque.Len] using hA.2.1, ?_, ?_⟩
  · have := abs_at hA 0 (by simp)
    simpa using this
  · intro i h
    have := abs_at hA (i + 1) (by simp; omega)
    simpa using this

/-- Witness of C4 as amended: PushFront(0) on the deque holding 1, 2, 3. -/
theorem pushFront_prepends_witness :
    Reachable sample3 ∧ IsSeq sample3 [some 1, some 2, some 3] ∧
      (sample3.bufLen = 0 → sample3.minCap ≤ maxSliceLen) ∧
      ∃ q', sample3.PushFront (some 0) = .ok q' ∧
        q'.Len = (([some 1, some 2, some 3] : List (Option Nat)).length : Int) + 1 ∧
        q'.At 0 = .ok (some 0) ∧
        (∀ (i : Nat) (h : i < ([some 1, some 2, some 3] : List (Option Nat)).length),
          q'.At ((i : Int) + 1) = .ok ([some 1, some 2, some 3] : List (Option Nat))[i]) :=
  ⟨sample3_reachable, abs_isSeq sample3_abs, by decide,
    pushFront_prepends sample3 _ (some 0) sample3_reachable (abs_isSeq sample3_abs)
      (by decide)⟩

/-- C5 (PopFront removes the first element): on a reachable deque with
non-empty logical sequence s, PopFront returns s[0] and leaves a deque with
Len() = |s| - 1 and At(i) = s[i+1] for every i < |s| - 1, whether or not the
call halves the buffer. -/
theorem popFront_removes_first (q : Deque α) (s : List (Option α))
    (hR : Reachable q) (hs : IsSeq q s) (hne : 0 < s.length) :
    ∃ q', q.PopFront = .ok (s[0], q') ∧ q'.Len = (s.length : Int) - 1 ∧
      ∀ (i : Nat) (h : i + 1 < s.length), q'.At (i : Int) = .ok s[i + 1] := by
  cases s with
  | nil => simp at hne
  | cons x t =>
    obtain ⟨q', h1, hA⟩ := abs_popFront (reachable_isSeq_abs hR hs)
    refine ⟨q', by simpa using h1, ?_, ?_⟩
    · have := hA.2.1
      simp only [Deque.Len, List.length_cons, Nat.cast_add, Nat.cast_one]
      omega
    · intro i h
      rw [abs_at hA i (by simpa using h)]
      simp

/-- Witness of C5: PopFront on the deque holding 1, 2, 3. -/
theorem popFront_removes_first_witness :
    Reachable sample3 ∧ IsSeq sample3 [some 1, some 2, some 3] ∧
      ∃ q', sample3.PopFront = .ok (some 1, q') ∧ q'.Len = 2 ∧
        ∀ (i : Nat) (h : i + 1 < ([some 1, some 2, some 3] : List (Option Nat)).length),
          q'.At (i : Int) = .ok ([some 1, some 2, some 3] : List (Option Nat))[i + 1] :=
  ⟨sample3_reachable, abs_isSeq sample3_abs,
    popFront_removes_first sample3 _ sample3_reachable (abs_isSeq sample3_abs) (by decide)⟩

/-- C6 (PopBack removes the last element): on a reachable deque with non-empty
logical sequence s, PopBack returns s[|s|-1] and leaves a deque with
Len() = |s| - 1 and At(i) = s[i] for every i < |s| - 1, whether or not the call
halves the buffer. -/
theorem popBack_removes_last (q : Deque α) (s : List (Option α))
    (hR : Reachable q) (hs : IsSeq q s) (hne : 0 < s.length) :
    ∃ q', q.PopBack = .ok (s[s.length - 1], q') ∧ q'.Len = (s.length : Int) - 1 ∧
      ∀ (i : Nat) (h : i + 1 < s.length), q'.At (i : Int) = .ok s[i] := by
  rcases List.eq_nil_or_concat s with rfl | ⟨t, x, rfl⟩
  · simp at hne
  · simp only [List.concat_eq_append] at hs hne ⊢
    obtain ⟨q', h1, hA⟩ := abs_popBack (reachable_isSeq_abs hR hs)
    refine ⟨q', by simpa using h1, ?_, ?_⟩
    · have := hA.2.1
      simp only [Deque.Len, List.length_append, List.length_singleton, Nat.cast_add,
        Nat.cast_one]
      omega
    · intro i h
      have hi : i < t.length := by simpa using h
      rw [abs_at hA i hi, List.getElem_append_left hi]

/-- Witness of C6: PopBack on the deque holding 1, 2, 3. -/
theorem popBack_removes_last_witness :
    Reachable sample3 ∧ IsSeq sample3 [some 1, some 2, some 3] ∧
      ∃ q', sample3.PopBack = .ok (some 3, q') ∧ q'.Len = 2 ∧
        ∀ (i : Nat) (h : i + 1 < ([some 1, some 2, some 3] : List (Option Nat)).length),
          q'.At (i : Int) = .ok ([some 1, some 2, some 3] : List (Option Nat))[i] :=
  ⟨sample3_reachable, abs_isSeq sample3_abs,
    popBack_removes_last sample3 _ sample3_reachable (abs_isSeq sample3_abs) (by decide)⟩

/-- C7 (Rotate semantics): on a reachable deque with logical sequence s of
length c ≥ 1, Rotate(n) returns for every integer n and leaves a deque with
Len() = c and At(i) = s[(i + n) mod c] for every i < c, mod being the
non-negative remainder; full and partly filled buffers alike. -/
theorem rotate_semantics (q : Deque α) (s : List (Option α)) (n : Int)
    (hR : Reachable q) (hs : IsSeq q s) (hc : 1 ≤ s.length) :
    ∃ q', q.Rotate n = .ok q' ∧ q'.Len = (s.length : Int) ∧
      ∀ i : Nat, i < s.length →
        ∃ v, s[(((i : Int) + n) % (s.length : Int)).toNat]? = some v ∧
          q'.At (i : Int) = .ok v := by
  obtain ⟨q', h1, hA, -, -⟩ := abs_rotate (reachable_isSeq_abs hR hs) n
  refine ⟨q', h1, by simpa [Deque.Len] using hA.2.1, ?_⟩
  intro i hi
  have hemod0 := Int.emod_nonneg n (show (s.length : Int) ≠ 0 by omega)
  obtain ⟨r, hr⟩ := Int.eq_ofNat_of_zero_le hemod0
  have hrr : (n % (s.length : Int)).toNat = r := by omega
  rw [hrr] at hA
  have hidx : (((i : Int) + n) % (s.length : Int)).toNat = (i + r) % s.length := by
    rw [← Int.add_emod_emod, hr, ← Nat.cast_add, ← Int.ofNat_emod, Int.toNat_ofNat]
  have hlt : (i + r) % s.length < s.length := Nat.mod_lt _ (by omega)
  refine ⟨s[(i + r) % s.length], ?_, ?_⟩
  · rw [hidx, List.getElem?_eq_getElem hlt]
  · rw [abs_at hA i (by simpa using hi), List.getElem_rotate]

/-- Witness of C7: on the deque holding 1, 2, 3, Rotate(1) gives 2, 3, 1. -/
theorem rotate_semantics_witness :
    Reachable sample3 ∧ IsSeq sample3 [some 1, some 2, some 3] ∧
      (∃ q', sample3.Rotate 1 = .ok q' ∧
        q'.Len = (([some 1, some 2, some 3] : List (Option Nat)).length : Int) ∧
        ∀ i : Nat, i < ([some 1, some 2, some 3] : List (Option Nat)).length →
          ∃ v, ([some 1, some 2, some 3] : List (Option Nat))[(((i : Int) + 1) %
              (([some 1, some 2, some 3] : List (Option Nat)).length : Int)).toNat]? = some v ∧
            q'.At (i : Int) = .ok v) ∧
      sample3.Rotate 1 =
        .ok ⟨[none, some 2, some 3, some 1] ++ List.replicate 12 none, 1, 4, 3, 16⟩ :=
  ⟨sample3_reachable, abs_isSeq sample3_abs,
    rotate_semantics sample3 _ 1 sample3_reachable (abs_isSeq sample3_abs) (by decide), by rfl⟩

/-- Negation at type int is exact away from the least value. -/
theorem negInt_eq {n : Int} (hlo : minInt < n) (hhi : n ≤ maxInt) : negInt n = -n := by
  unfold negInt wrapInt
  unfold minInt at hlo
  unfold maxInt at hhi
  rw [Int.emod_eq_of_lt (by omega) (by omega)]
  omega

/-- Two rotations by opposite amounts cancel. -/
theorem abs_rotate_neg {q : Deque α} {s : List (Option α)} (hA : Abs q s) (n : Int) :
    ∃ q₁ q₂, q.Rotate n = .ok q₁ ∧ q₁.Rotate (-n) = .ok q₂ ∧ Abs q₂ s := by
  obtain ⟨q₁, h1, hA₁, -, -⟩ := abs_rotate hA n
  obtain ⟨q₂, h2, hA₂, -, -⟩ := abs_rotate hA₁ (-n)
  refine ⟨q₁, q₂, h1, h2, ?_⟩
  rw [List.length_rotate, List.rotate_rotate] at hA₂
  rcases Nat.eq_zero_or_pos s.length with h0 | h0
  · have : s = [] := List.length_eq_zero.mp h0
    subst this
    simpa using hA₂
  · have hne : (s.length : Int) ≠ 0 := by omega
    obtain ⟨r₁, hr₁⟩ := Int.eq_ofNat_of_zero_le (Int.emod_nonneg n hne)
    obtain ⟨r₂, hr₂⟩ := Int.eq_ofNat_of_zero_le (Int.emod_nonneg (-n) hne)
    have hsum : (r₁ + r₂) % s.length = 0 := by
      have : ((r₁ : Int) + r₂) % (s.length : Int) = 0 := by
        rw [← hr₁, ← hr₂, ← Int.add_emod]; simp
      have h2 : (((r₁ + r₂) % s.length : Nat) : Int) = 0 := by
        rw [Int.ofNat_emod, Nat.cast_add]; exact this
      exact_mod_cast h2
    rw [hr₁, hr₂, Int.toNat_ofNat, Int.toNat_ofNat, ← List.rotate_mod, hsum,
      List.rotate_zero] at hA₂
    exact hA₂

/-- C8, the claim as stated fails: on the deque holding 1, 2, 3, Rotate(n)
followed by Rotate(-n) for n the least int, whose negation at type int is n
itself, leaves 3, 1, 2. -/
theorem rotate_round_trip_minInt :
    negInt minInt = minInt ∧ Reachable sample3 ∧ IsSeq sample3 [some 1, some 2, some 3] ∧
      1 ≤ sample3.Len ∧
      ∃ q₁ q₂, sample3.Rotate minInt = .ok q₁ ∧ q₁.Rotate (negInt minInt) = .ok q₂ ∧
        IsSeq q₂ [some 3, some 1, some 2] ∧ q₂.At 0 = .ok (some 3) ∧
        ¬ IsSeq q₂ [some 1, some 2, some 3] := by
  have hneg : negInt minInt = minInt := by
    unfold negInt wrapInt minInt; norm_num
  refine ⟨hneg, sample3_reachable, abs_isSeq sample3_abs, by decide, ?_⟩
  obtain ⟨q₁, h1, hA₁, -, -⟩ := abs_rotate sample3_abs minInt
  obtain ⟨q₂, h2, hA₂, -, -⟩ := abs_rotate hA₁ minInt
  have hr : (minInt % ((([some 1, some 2, some 3] : List (Option Nat)).length : Nat) : Int)).toNat
      = 1 := by
    unfold minInt; norm_num
  rw [hr] at hA₁
  rw [List.length_rotate, hr] at hA₂
  have hseq : (([some 1, some 2, some 3] : List (Option Nat)).rotate 1).rotate 1
      = [some 3, some 1, some 2] := by decide
  rw [hseq] at hA₂
  have hat : q₂.At 0 = .ok (some 3) := abs_at hA₂ 0 (by decide)
  refine ⟨q₁, q₂, h1, by rw [hneg]; exact h2, abs_isSeq hA₂, hat, ?_⟩
  intro hbad
  have := isSeq_unique hbad (abs_isSeq hA₂)
  exact absurd this (by decide)

/-- C8 as amended (rotation round trip): on a reachable deque with Len() ≥ 1
and logical sequence s, for every int n other than the least one, Rotate(n)
followed by Rotate(-n), the negation taken at type int, returns and leaves the
logical sequence s. -/
theorem rotate_round_trip (q : Deque α) (s : List (Option α)) (n : Int)
    (hR : Reachable q) (hs : IsSeq q s) (_hc : 1 ≤ q.Len)
    (hlo : minInt < n) (hhi : n ≤ maxInt) :
    ∃ q₁ q₂, q.Rotate n = .ok q₁ ∧ q₁.Rotate (negInt n) = .ok q₂ ∧ IsSeq q₂ s := by
  obtain ⟨q₁, q₂, h1, h2, hA⟩ := abs_rotate_neg (reachable_isSeq_abs hR hs) n
  exact ⟨q₁, q₂, h1, by rw [negInt_eq hlo hhi]; exact h2, abs_isSeq hA⟩

/-- Witness of C8 as amended: Rotate(2) then Rotate(-2) on the deque holding
1, 2, 3. -/
theorem rotate_round_trip_witness :
    Reachable sample3 ∧ IsSeq sample3 [some 1, some 2, some 3] ∧ 1 ≤ sample3.Len ∧
      minInt < 2 ∧ (2 : Int) ≤ maxInt ∧
      ∃ q₁ q₂, sample3.Rotate 2 = .ok q₁ ∧ q₁.Rotate (negInt 2) = .ok q₂ ∧
        IsSeq q₂ [some 1, some 2, some 3] :=
  ⟨sample3_reachable, abs_isSeq sample3_abs, by decide, by decide, by decide,
    rotate_round_trip sample3 _ 2 sample3_reachable (abs_isSeq sample3_abs) (by decide)
      (by decide) (by decide)⟩

/-- C9 (failure conditions): on a reachable deque, PopFront, PopBack, Front and
Back each fail exactly when Len() = 0 and At(i) fails exactly when i < 0 or
i ≥ Len(); every failure is the explicit panic of the method, never a
run-time panic such as an index out of range, and the failing PopFront or
PopBack leaves the receiver as it was.  Front, Back and At assign to nothing. -/
theorem failure_conditions (q : Deque α) (hR : Reachable q) :
    (((∃ e, q.PopFront = .error e) ↔ q.Len = 0) ∧
      ∀ f q', q.PopFront = .error (f, q') → f = Fault.popFrontEmpty ∧ q' = q) ∧
    (((∃ e, q.PopBack = .error e) ↔ q.Len = 0) ∧
      ∀ f q', q.PopBack = .error (f, q') → f = Fault.popBackEmpty ∧ q' = q) ∧
    (((∃ f, q.Front = .error f) ↔ q.Len = 0) ∧
      ∀ f, q.Front = .error f → f = Fault.frontEmpty) ∧
    (((∃ f, q.Back = .error f) ↔ q.Len = 0) ∧
      ∀ f, q.Back = .error f → f = Fault.backEmpty) ∧
    ∀ i : Int, ((∃ f, q.At i = .error f) ↔ (i < 0 ∨ i ≥ q.Len)) ∧
      ∀ f, q.At i = .error f → f = Fault.atRange := by
  obtain ⟨s, hA⟩ := reachable_abs hR
  have hcount : q.count = (s.length : Int) := hA.2.1
  have hAt : ∀ i : Int, ¬ (i < 0 ∨ i ≥ q.Len) → ∃ v, q.At i = .ok v := by
    intro i hi
    simp only [Deque.Len, hcount] at hi
    obtain ⟨j, rfl⟩ := Int.eq_ofNat_of_zero_le (show 0 ≤ i by omega)
    exact ⟨_, abs_at hA j (by omega)⟩
  have hAtE : ∀ i : Int, (i < 0 ∨ i ≥ q.Len) → q.At i = .error Fault.atRange := by
    intro i hi
    have hi' : i < 0 ∨ i ≥ q.count := hi
    simp only [Deque.At, hi', if_true]
  have hAtAll : ∀ i : Int, ((∃ f, q.At i = .error f) ↔ (i < 0 ∨ i ≥ q.Len)) ∧
      ∀ f, q.At i = .error f → f = Fault.atRange := by
    intro i
    by_cases hi : i < 0 ∨ i ≥ q.Len
    · refine ⟨⟨fun _ => hi, fun _ => ⟨_, hAtE i hi⟩⟩, ?_⟩
      intro f hf
      rw [hAtE i hi] at hf
      injection hf with hf
      exact hf.symm
    · obtain ⟨v, hv⟩ := hAt i hi
      refine ⟨⟨?_, fun h => absurd h hi⟩, ?_⟩
      · rintro ⟨f, hf⟩; rw [hv] at hf; cases hf
      · intro f hf; rw [hv] at hf; cases hf
  rcases List.eq_nil_or_concat s with rfl | ⟨t, x, hsx⟩
  · -- empty deque: the four calls panic at their guard
    have hc0 : q.count ≤ 0 := by rw [hcount]; simp
    have hlen : q.Len = 0 := by simpa [Deque.Len] using hcount
    have e1 : q.PopFront = .error (Fault.popFrontEmpty, q) := by
      simp only [Deque.PopFront, hc0, if_true]
    have e2 : q.PopBack = .error (Fault.popBackEmpty, q) := by
      simp only [Deque.PopBack, hc0, if_true]
    have e3 : q.Front = .error Fault.frontEmpty := by simp only [Deque.Front, hc0, if_true]
    have e4 : q.Back = .error Fault.backEmpty := by simp only [Deque.Back, hc0, if_true]
    refine ⟨⟨⟨fun _ => hlen, fun _ => ⟨_, e1⟩⟩, ?_⟩, ⟨⟨fun _ => hlen, fun _ => ⟨_, e2⟩⟩, ?_⟩,
      ⟨⟨fun _ => hlen, fun _ => ⟨_, e3⟩⟩, ?_⟩, ⟨⟨fun _ => hlen, fun _ => ⟨_, e4⟩⟩, ?_⟩, hAtAll⟩
    · intro f q' hf
      rw [e1] at hf
      injection hf with hf
      injection hf with h1 h2
      exact ⟨h1.symm, h2.symm⟩
    · intro f q' hf
      rw [e2] at hf
      injection hf with hf
      injection hf with h1 h2
      exact ⟨h1.symm, h2.symm⟩
    · intro f hf
      rw [e3] at hf
      injection hf with hf
      exact hf.symm
    · intro f hf
      rw [e4] at hf
      injection hf with hf
      exact hf.symm
  · -- non-empty deque: the four calls return
    rw [List.concat_eq_append] at hsx
    have hlen : q.Len ≠ 0 := by
      simp only [Deque.Len, hcount, hsx, List.length_append, List.length_singleton]
      omega
    obtain ⟨y, u, hyu⟩ : ∃ y u, s = y :: u := by
      cases s with
      | nil => simp at hsx
      | cons y u => exact ⟨y, u, rfl⟩
    obtain ⟨q₁, e1⟩ : ∃ q₁, q.PopFront = .ok (y, q₁) := by
      obtain ⟨q₁, h, -⟩ := abs_popFront (hyu ▸ hA)
      exact ⟨q₁, h⟩
    obtain ⟨q₂, e2⟩ : ∃ q₂, q.PopBack = .ok (x, q₂) := by
      obtain ⟨q₂, h, -⟩ := abs_popBack (hsx ▸ hA)
      exact ⟨q₂, h⟩
    have e3 : q.Front = .ok y := abs_front (hyu ▸ hA)
    have e4 : q.Back = .ok x := abs_back (hsx ▸ hA)
    refine ⟨⟨⟨?_, fun h => absurd h hlen⟩, ?_⟩, ⟨⟨?_, fun h => absurd h hlen⟩, ?_⟩,
      ⟨⟨?_, fun h => absurd h hlen⟩, ?_⟩, ⟨⟨?_, fun h => absurd h hlen⟩, ?_⟩, hAtAll⟩
    · rintro ⟨e, he⟩; rw [e1] at he; cases he
    · intro f q' hf; rw [e1] at hf; cases hf
    · rintro ⟨e, he⟩; rw [e2] at he; cases he
    · intro f q' hf; rw [e2] at hf; cases hf
    · rintro ⟨e, he⟩; rw [e3] at he; cases he
    · intro f hf; rw [e3] at hf; cases hf
    · rintro ⟨e, he⟩; rw [e4] at he; cases he
    · intro f hf; rw [e4] at hf; cases hf

/-- Witness of C9: the zero value, on which PopFront panics and leaves the
zero value. -/
theorem failure_conditions_witness :
    Reachable (zeroValue : Deque Nat) ∧
      (zeroValue : Deque Nat).PopFront = .error (Fault.popFrontEmpty, zeroValue) ∧
      ((((∃ e, (zeroValue : Deque Nat).PopFront = .error e) ↔ (zeroValue : Deque Nat).Len = 0) ∧
        ∀ f q', (zeroValue : Deque Nat).PopFront = .error (f, q') →
          f = Fault.popFrontEmpty ∧ q' = zeroValue) ∧
      (((∃ e, (zeroValue : Deque Nat).PopBack = .error e) ↔ (zeroValue : Deque Nat).Len = 0) ∧
        ∀ f q', (zeroValue : Deque Nat).PopBack = .error (f, q') →
          f = Fault.popBackEmpty ∧ q' = zeroValue) ∧
      (((∃ f, (zeroValue : Deque Nat).Front = .error f) ↔ (zeroValue : Deque Nat).Len = 0) ∧
        ∀ f, (zeroValue : Deque Nat).Front = .error f → f = Fault.frontEmpty) ∧
      (((∃ f, (zeroValue : Deque Nat).Back = .error f) ↔ (zeroValue : Deque Nat).Len = 0) ∧
        ∀ f, (zeroValue : Deque Nat).Back = .error f → f = Fault.backEmpty) ∧
      ∀ i : Int, ((∃ f, (zeroValue : Deque Nat).At i = .error f) ↔
          (i < 0 ∨ i ≥ (zeroValue : Deque Nat).Len)) ∧
        ∀ f, (zeroValue : Deque Nat).At i = .error f → f = Fault.atRange) :=
  ⟨Reachable.zero, rfl, failure_conditions zeroValue Reachable.zero⟩

/-- C10 (indexed-access consistency): on a reachable deque, for every i with
0 ≤ i < Len(), the i calls of PopFront all return and Front() on the deque
they leave returns the value that At(i) returns on the original deque. -/
theorem at_eq_front_after_pops (q : Deque α) (i : Nat) (hR : Reachable q)
    (hi : (i : Int) < q.Len) :
    ∃ vs q' v, popFrontN i q = .ok (vs, q') ∧ q.At (i : Int) = .ok v ∧ q'.Front = .ok v := by
  obtain ⟨s, hA⟩ := reachable_abs hR
  have hlt : i < s.length := by
    have := hA.2.1
    simp only [Deque.Len] at hi
    omega
  obtain ⟨q', h1, hA'⟩ := popFrontN_abs i q s hA (by omega)
  have hd : s.drop i = s[i] :: s.drop (i + 1) := List.drop_eq_getElem_cons hlt
  rw [hd] at hA'
  exact ⟨s.take i, q', s[i], h1, abs_at hA i hlt, abs_front hA'⟩

/-- Witness of C10: index 2 of the deque holding 1, 2, 3. -/
theorem at_eq_front_after_pops_witness :
    Reachable sample3 ∧ ((2 : Nat) : Int) < sample3.Len ∧
      ∃ vs q' v, popFrontN 2 sample3 = .ok (vs, q') ∧ sample3.At ((2 : Nat) : Int) = .ok v ∧
        q'.Front = .ok v :=
  ⟨sample3_reachable, by decide,
    at_eq_front_after_pops sample3 2 sample3_reachable (by decide)⟩

end Claims

/-! ## Buffer length and minimum capacity across a call -/

section Fields

variable {α : Type}

theorem bind_ok {ε β γ : Type} {x : Except ε β} {f : β → Except ε γ} {c : γ}
    (h : x >>= f = .ok c) : ∃ b, x = .ok b ∧ f b = .ok c := by
  cases x with
  | error e => simp [bind, Except.bind] at h
  | ok b => exact ⟨b, rfl, h⟩

theorem onPanic_eq_ok {β : Type} {q : Deque α} {r : Except Fault β} {b : β}
    (h : onPanic q r = .ok b) : r = .ok b := by
  cases r with
  | error e => simp [onPanic] at h
  | ok b' => simpa [onPanic] using h

theorem assign_length {b b' : List (Option α)} {i : Int} {v : Option α}
    (h : assign b i v = .ok b') : b'.length = b.length := by
  unfold assign at h
  split at h
  · injection h with h; subst h; simp
  · cases h

theorem make_length {held : Nat} {n : Int} {b : List (Option α)} (h : make held n = .ok b) :
    (b.length : Int) = n := by
  unfold make at h
  split at h
  · rename_i hc
    have h0 := hc.1
    injection h with h; subst h; simp only [List.length_replicate]; omega
  · cases h

theorem slice_length {b s : List (Option α)} {lo hi : Int} (h : slice b lo hi = .ok s) :
    0 ≤ lo ∧ lo ≤ hi ∧ hi ≤ (b.length : Int) ∧ (s.length : Int) = hi - lo := by
  unfold slice at h
  split at h
  · rename_i hc
    injection h with h; subst h
    refine ⟨hc.1, hc.2.1, hc.2.2, ?_⟩
    simp only [List.length_take, List.length_drop]
    omega
  · cases h

theorem copy_length (dst src : List (Option α)) : (copy dst src).1.length = dst.length := by
  simp only [copy, List.length_append, List.length_take, List.length_drop]
  omega

theorem copy_count (dst src : List (Option α)) :
    0 ≤ (copy dst src).2 ∧ (copy dst src).2 ≤ (dst.length : Int) := by
  simp only [copy]
  omega

/-- Whatever the state, a resize that returns leaves a buffer of twice the
count and touches neither the count nor the minimum capacity. -/
theorem resize_fields {q q' : Deque α} (h : q.resize = .ok q') :
    (q'.buf.length : Int) = q.count * 2 ∧ q'.minCap = q.minCap ∧ q'.count = q.count ∧
      q'.head = 0 ∧ q'.tail = q.count := by
  unfold Deque.resize at h
  obtain ⟨nb, h1, h⟩ := bind_ok h
  have hl1 := make_length (onPanic_eq_ok h1)
  dsimp only at h
  have key : ∃ nb₂ : List (Option α), nb₂.length = nb.length ∧
      q' = { q with head := 0, tail := q.count, buf := nb₂ } := by
    split at h
    · obtain ⟨s, -, h⟩ := bind_ok h
      obtain ⟨y, hy, h⟩ := bind_ok h
      injection hy with hy
      injection h with h
      exact ⟨y, by rw [← hy]; exact copy_length _ _, h.symm⟩
    · obtain ⟨s₁, -, h⟩ := bind_ok h
      obtain ⟨d, hd, h⟩ := bind_ok h
      obtain ⟨s₂, -, h⟩ := bind_ok h
      obtain ⟨y, hy, h⟩ := bind_ok h
      injection hy with hy
      injection h with h
      have hd' := slice_length (onPanic_eq_ok hd)
      have hc := copy_count nb s₁
      have hcl := copy_length nb s₁
      refine ⟨y, ?_, h.symm⟩
      rw [← hy]
      simp only [List.length_append, List.length_take, copy_length]
      rw [hcl] at hd'
      omega
  obtain ⟨nb₂, hl2, rfl⟩ := key
  refine ⟨?_, rfl, rfl, rfl, rfl⟩
  simp only [hl2]
  exact hl1

/-- The grow step: the buffer is allocated at the minimum capacity when there
is none, doubled when it is full, and kept otherwise. -/
theorem growIfFull_fields {q q' : Deque α} (h : q.growIfFull = .ok q') :
    q'.count = q.count ∧
      q'.minCap = (if q.bufLen = 0 ∧ q.minCap = 0 then minCapacity else q.minCap) ∧
      (q'.buf.length : Int) =
        (if q.bufLen = 0 then q'.minCap
         else if q.count = q.bufLen then q.bufLen * 2 else q.bufLen) := by
  unfold Deque.growIfFull at h
  split at h
  · rename_i h0
    obtain ⟨b, hb, h⟩ := bind_ok h
    have hl := make_length (onPanic_eq_ok hb)
    injection h with h
    subst h
    by_cases hm : q.minCap = 0
    · simp only [hm, if_true] at hl ⊢
      simp [h0, hl]
    · simp only [hm, if_false] at hl ⊢
      simp [h0, hl, hm]
  · rename_i h0
    split at h
    · rename_i hfull
      obtain ⟨e1, e2, e3, -, -⟩ := resize_fields h
      refine ⟨e3, by simp [h0, e2], ?_⟩
      simp only [h0, if_false, hfull, if_true]
      rw [e1, hfull]
    · rename_i hfull
      injection h with h
      subst h
      simp only [Deque.bufLen] at h0 hfull ⊢
      simp [h0, hfull]

/-- The shrink step: the buffer is replaced by one of twice the count when it
is longer than the minimum capacity and exactly one quarter full, and kept
otherwise. -/
theorem shrinkIfExcess_fields {q q' : Deque α} (h : q.shrinkIfExcess = .ok q') :
    q'.count = q.count ∧ q'.minCap = q.minCap ∧
      (q'.buf.length : Int) =
        (if q.bufLen > q.minCap ∧ q.count * 4 = q.bufLen then q.count * 2 else q.bufLen) := by
  unfold Deque.shrinkIfExcess at h
  split at h
  · rename_i hc
    obtain ⟨e1, e2, e3, -, -⟩ := resize_fields h
    exact ⟨e3, e2, by rw [if_pos hc]; exact e1⟩
  · rename_i hc
    injection h with h
    subst h
    exact ⟨rfl, rfl, by rw [if_neg hc]; rfl⟩

theorem pushBack_fields {q q' : Deque α} {v : Option α} (h : q.PushBack v = .ok q') :
    q'.count = q.count + 1 ∧
      q'.minCap = (if q.bufLen = 0 ∧ q.minCap = 0 then minCapacity else q.minCap) ∧
      (q'.buf.length : Int) =
        (if q.bufLen = 0 then q'.minCap
         else if q.count = q.bufLen then q.bufLen * 2 else q.bufLen) := by
  unfold Deque.PushBack at h
  obtain ⟨q₁, hg, h⟩ := bind_ok h
  obtain ⟨b, hb, h⟩ := bind_ok h
  obtain ⟨e1, e2, e3⟩ := growIfFull_fields hg
  have hl := assign_length (onPanic_eq_ok hb)
  injection h with h
  subst h
  refine ⟨by simp only [e1], e2, ?_⟩
  simp only [hl]
  exact e3

theorem pushFront_fields {q q' : Deque α} {v : Option α} (h : q.PushFront v = .ok q') :
    q'.count = q.count + 1 ∧
      q'.minCap = (if q.bufLen = 0 ∧ q.minCap = 0 then minCapacity else q.minCap) ∧
      (q'.buf.length : Int) =
        (if q.bufLen = 0 then q'.minCap
         else if q.count = q.bufLen then q.bufLen * 2 else q.bufLen) := by
  unfold Deque.PushFront at h
  obtain ⟨q₁, hg, h⟩ := bind_ok h
  obtain ⟨b, hb, h⟩ := bind_ok h
  obtain ⟨e1, e2, e3⟩ := growIfFull_fields hg
  have hl := assign_length (onPanic_eq_ok hb)
  injection h with h
  subst h
  refine ⟨by simp only [e1], e2, ?_⟩
  simp only [hl]
  exact e3

theorem popFront_fields {q q' : Deque α} {v : Option α} (h : q.PopFront = .ok (v, q')) :
    q'.count = q.count - 1 ∧ q'.minCap = q.minCap ∧
      (q'.buf.length : Int) =
        (if q.bufLen > q.minCap ∧ (q.count - 1) * 4 = q.bufLen then (q.count - 1) * 2
         else q.bufLen) := by
  unfold Deque.PopFront at h
  split at h
  · cases h
  · obtain ⟨r, -, h⟩ := bind_ok h
    obtain ⟨b, hb, h⟩ := bind_ok h
    obtain ⟨q₂, hs, h⟩ := bind_ok h
    have hl := assign_length (onPanic_eq_ok hb)
    obtain ⟨e1, e2, e3⟩ := shrinkIfExcess_fields hs
    injection h with h
    injection h with h1 h2
    subst h2
    simp only [Deque.bufLen, hl] at e1 e2 e3
    exact ⟨e1, e2, e3⟩

theorem popBack_fields {q q' : Deque α} {v : Option α} (h : q.PopBack = .ok (v, q')) :
    q'.count = q.count - 1 ∧ q'.minCap = q.minCap ∧
      (q'.buf.length : Int) =
        (if q.bufLen > q.minCap ∧ (q.count - 1) * 4 = q.bufLen then (q.count - 1) * 2
         else q.bufLen) := by
  unfold Deque.PopBack at h
  split at h
  · cases h
  · obtain ⟨r, -, h⟩ := bind_ok h
    obtain ⟨b, hb, h⟩ := bind_ok h
    obtain ⟨q₂, hs, h⟩ := bind_ok h
    have hl := assign_length (onPanic_eq_ok hb)
    obtain ⟨e1, e2, e3⟩ := shrinkIfExcess_fields hs
    injection h with h
    injection h with h1 h2
    subst h2
    simp only [Deque.bufLen, hl] at e1 e2 e3
    exact ⟨e1, e2, e3⟩

theorem pushBackAll_reachable (xs : List (Option α)) :
    ∀ (q q' : Deque α), Reachable q → pushBackAll q xs = .ok q' → Reachable q' := by
  induction xs with
  | nil =>
    intro q q' hR h
    injection h with h
    exact h ▸ hR
  | cons x xs ih =>
    intro q q' hR h
    obtain ⟨q₁, h1, h2⟩ := bind_ok h
    exact ih q₁ q' (Reachable.pushBack x hR h1) h2

theorem popFrontN_reachable (n : Nat) :
    ∀ (q q' : Deque α) (vs : List (Option α)), Reachable q →
      popFrontN n q = .ok (vs, q') → Reachable q' := by
  induction n with
  | zero =>
    intro q q' vs hR h
    injection h with h
    injection h with h1 h2
    exact h2 ▸ hR
  | succ n ih =>
    intro q q' vs hR h
    obtain ⟨⟨v, q₁⟩, h1, h2⟩ := bind_ok h
    obtain ⟨⟨ws, q₂⟩, h3, h4⟩ := bind_ok h2
    injection h4 with h4
    injection h4 with h5 h6
    exact h6 ▸ ih q₁ q₂ ws (Reachable.popFront hR h1) h3

theorem sample16_pushed : pushBackAll (zeroValue : Deque Nat) sixteen = .ok sample16 := by rfl

theorem sample17_pushed :
    pushBackAll (zeroValue : Deque Nat) (sixteen ++ [some 17]) = .ok sample17 := by rfl

theorem sample9_popped :
    popFrontN 8 sample17 =
      .ok ([some 1, some 2, some 3, some 4, some 5, some 6, some 7, some 8], sample9) := by rfl

theorem sample16_reachable : Reachable sample16 :=
  pushBackAll_reachable _ _ _ Reachable.zero sample16_pushed

theorem sample17_reachable : Reachable sample17 :=
  pushBackAll_reachable _ _ _ Reachable.zero sample17_pushed

theorem sample9_reachable : Reachable sample9 :=
  popFrontN_reachable _ _ _ _ sample17_reachable sample9_popped

theorem sample8_popped : sample9.PopFront = .ok (some 9, sample8) := by rfl

/-- Of two powers of two, the smaller is at most half of the larger. -/
theorem two_pow_lt_half {i j : Nat} (h : (2 : Int) ^ j < 2 ^ i) : 2 * (2 : Int) ^ j ≤ 2 ^ i := by
  have hji : j < i := by
    rcases Nat.lt_or_ge j i with h1 | h1
    · exact h1
    · have : (2 : Int) ^ i ≤ 2 ^ j := pow_le_pow_right₀ (by norm_num) h1
      omega
  have : (2 : Int) ^ (j + 1) ≤ 2 ^ i := pow_le_pow_right₀ (by norm_num) hji
  rw [pow_succ] at this
  omega

/-- A buffer that a pop has made shorter is still at least as long as the
minimum capacity. -/
theorem shrunk_ge_minCap {q : Deque α} (hR : Reachable q) {c' : Int}
    (hlen : c' = (if q.bufLen > q.minCap ∧ (q.count - 1) * 4 = q.bufLen then (q.count - 1) * 2
      else q.bufLen))
    (hlt : c' < q.bufLen) : q.minCap ≤ c' := by
  obtain ⟨s, hI, -, -⟩ := reachable_abs hR
  by_cases hc : q.bufLen > q.minCap ∧ (q.count - 1) * 4 = q.bufLen
  · rw [if_pos hc] at hlen
    obtain ⟨h1, h2⟩ := hc
    rcases hI.minCap_pow with h0 | ⟨j, -, hj⟩
    · rw [h0]; have := hI.count_nonneg; omega
    · have hpos : 0 < q.buf.length := by
        have : (0 : Int) < 2 ^ j := by positivity
        simp only [Deque.bufLen] at h1
        omega
      obtain ⟨i, -, hi⟩ := inv_pow hI hpos
      have hiI : q.bufLen = 2 ^ i := by simp [Deque.bufLen, hi]
      have := two_pow_lt_half (i := i) (j := j) (by rw [← hiI, ← hj]; exact h1)
      rw [← hiI, ← hj] at this
      omega
  · rw [if_neg hc] at hlen
    omega

/-- Up to sixteen PushBack calls on the zero value, or on a deque of 16 slots
with minimum capacity 16 and room for them, leave 16 slots and minimum
capacity 16. -/
theorem pushBackAll_sixteen (xs : List (Option α)) :
    ∀ (q : Deque α) (s : List (Option α)), Abs q s →
      ((q.bufLen = 0 ∧ q.minCap = 0) ∨ (q.bufLen = 16 ∧ q.minCap = 16)) →
      s.length + xs.length ≤ 16 →
      ∃ q', pushBackAll q xs = .ok q' ∧ Abs q' (s ++ xs) ∧
        (xs = [] ∨ (q'.bufLen = 16 ∧ q'.minCap = 16)) := by
  induction xs with
  | nil => intro q s hA _ _; exact ⟨q, rfl, by simpa using hA, Or.inl rfl⟩
  | cons x xs ih =>
    intro q s hA hJ hlen
    simp only [List.length_cons] at hlen
    have hfit : q.bufLen = 0 → q.minCap ≤ maxSliceLen := by
      intro h0
      rcases hJ with ⟨-, b⟩ | ⟨a, -⟩
      · rw [b]; decide
      · rw [a] at h0; exact absurd h0 (by decide)
    obtain ⟨q₁, h1, hA₁⟩ := abs_pushBack hA hfit x
    obtain ⟨-, e2, e3⟩ := pushBack_fields h1
    have hcount : q.count = (s.length : Int) := hA.2.1
    have hJ₁ : q₁.bufLen = 16 ∧ q₁.minCap = 16 := by
      rcases hJ with ⟨a, b⟩ | ⟨a, b⟩
      · have hm : q₁.minCap = 16 := by rw [e2, if_pos ⟨a, b⟩]; rfl
        refine ⟨?_, hm⟩
        rw [if_pos a, hm] at e3
        exact e3
      · have hm : q₁.minCap = 16 := by
          rw [e2, if_neg (by rw [a]; simp)]; exact b
        refine ⟨?_, hm⟩
        rw [if_neg (by rw [a]; simp), if_neg (by rw [a, hcount]; omega), a] at e3
        exact e3
    obtain ⟨q', h2, hA', hJ'⟩ := ih q₁ (s ++ [x]) hA₁ (Or.inr hJ₁) (by simp; omega)
    refine ⟨q', ?_, by simpa using hA', Or.inr ?_⟩
    · simp only [pushBackAll, h1, bind, Except.bind]
      exact h2
    · rcases hJ' with rfl | h
      · injection h2 with h2
        rw [← h2]; exact hJ₁
      · exact h

/-- Pops never shorten a buffer that is no longer than the minimum capacity. -/
theorem popsFrom_keeps {q q' : Deque α} (h : PopsFrom q q') (hle : q.bufLen ≤ q.minCap) :
    q'.bufLen = q.bufLen ∧ q'.minCap = q.minCap := by
  induction h with
  | refl => exact ⟨rfl, rfl⟩
  | front _ hop ih =>
    obtain ⟨-, e2, e3⟩ := popFront_fields hop
    rw [if_neg (by rw [ih.1, ih.2]; intro hc; omega)] at e3
    exact ⟨by simp only [Deque.bufLen] at e3 ⊢; rw [e3]; exact ih.1, by rw [e2, ih.2]⟩
  | back _ hop ih =>
    obtain ⟨-, e2, e3⟩ := popBack_fields hop
    rw [if_neg (by rw [ih.1, ih.2]; intro hc; omega)] at e3
    exact ⟨by simp only [Deque.bufLen] at e3 ⊢; rw [e3]; exact ih.1, by rw [e2, ih.2]⟩

theorem sample16_abs : Abs sample16 sixteen := by
  obtain ⟨q', h1, h2⟩ := pushBackAll_abs sixteen (zeroValue : Deque Nat) [] abs_zero
    zeroValue_fits
  rw [sample16_pushed] at h1
  injection h1 with h1
  rw [h1]
  exact h2

/-- The slot of a logical index, written with the remainder. -/
theorem emod_slot {h L i : Nat} (hh : h < L) (hi : i < L) :
    (((h : Int) + (i : Int)) % (L : Int)).toNat = slot h L i := by
  unfold slot
  split_ifs with hlt
  · rw [Int.emod_eq_of_lt (by omega) (by omega)]; omega
  · have e : ((h : Int) + (i : Int)) = ((h : Int) + i - L) + L := by ring
    rw [e, Int.add_emod_self, Int.emod_eq_of_lt (by omega) (by omega)]
    omega

/-- On a deque with a free slot, Clear sets every live slot to nil. -/
theorem abs_clear_wipes {q : Deque α} {s : List (Option α)} (hA : Abs q s)
    (hroom : s.length < q.buf.length) :
    ∃ q', q.Clear = .ok q' ∧ q'.head = 0 ∧ q'.tail = 0 ∧ q'.count = 0 ∧
      ∀ i : Nat, i < s.length → q'.buf[slot q.head.toNat q.buf.length i]? = some none := by
  obtain ⟨buf, h, m, rfl, hG⟩ := abs_unpack hA
  have hroom' : s.length < buf.length := hroom
  have hh : h < buf.length := by have := hG.head; omega
  obtain ⟨k, hk, hpow⟩ := good_pow hG (by omega)
  obtain ⟨b', h1, -, -, h4⟩ := clearLoop_ok (α := α) hpow hh hroom' (h : Int) (s.length : Int) m
    s.length 0 (buf.length + 1) buf rfl (by omega) (by omega)
  rw [slot_zero hh] at h1
  refine ⟨⟨b', 0, 0, 0, m⟩, ?_, rfl, rfl, rfl, ?_⟩
  · have e : (canon buf h s.length m).bufLen = (buf.length : Int) := rfl
    have e2 : (canon buf h s.length m).buf.length = buf.length := rfl
    have e3 : (canon buf h s.length m).head = (h : Int) := rfl
    have e4 : canon buf h s.length m
        = ⟨buf, (h : Int), (slot h buf.length s.length : Nat), (s.length : Int), m⟩ := rfl
    simp only [Deque.Clear, e, e2, e3]
    rw [e4, h1]
    rfl
  · intro i hi
    have e3 : (canon buf h s.length m).head.toNat = h := by simp [canon]
    have e2 : (canon buf h s.length m).buf.length = buf.length := rfl
    rw [e3, e2]
    exact h4 i (by omega) hi

/-- The shift 1 << e is exact up to e = 62. -/
theorem shlOne_small {e : Nat} (he : e ≤ 62) : shlOne e = 2 ^ e := by
  have hlt : (2 : Int) ^ e < 2 ^ 63 := pow_lt_pow_right₀ (by norm_num) (by omega)
  have hpos : (0 : Int) < 2 ^ e := by positivity
  unfold shlOne wrapInt
  rw [Int.emod_eq_of_lt (by omega) (by omega)]
  omega

theorem setMinCapacity_minCap_ne (q : Deque α) (e : Nat) : (q.SetMinCapacity e).minCap ≠ 0 := by
  unfold Deque.SetMinCapacity
  split_ifs with h
  · obtain ⟨k, -, hk⟩ := shlOne_pow e h
    show shlOne e ≠ 0
    rw [hk]; positivity
  · simp [minCapacity]

theorem zeroValue_clear : (zeroValue : Deque α).Clear = .ok zeroValue := by
  simp [Deque.Clear, clearLoop, zeroValue, bind, Except.bind, pure, Except.pure]

/-- Only the zero value has no minimum capacity set. -/
theorem reachable_minCap_zero {q : Deque α} (hR : Reachable q) (h0 : q.minCap = 0) :
    q = zeroValue := by
  induction hR with
  | zero => rfl
  | @pushBack q₀ q₁ v hq hop _ =>
    exfalso
    obtain ⟨s, hI, -, -⟩ := reachable_abs hq
    obtain ⟨-, e2, -⟩ := pushBack_fields hop
    rw [h0] at e2
    split_ifs at e2 with hc
    · simp [minCapacity] at e2
    · have hal := hI.alloc
      have : q₀.buf.length = 0 := by
        by_contra hne
        exact hal hne e2.symm
      exact hc ⟨by simp [Deque.bufLen, this], e2.symm⟩
  | @pushFront q₀ q₁ v hq hop _ =>
    exfalso
    obtain ⟨s, hI, -, -⟩ := reachable_abs hq
    obtain ⟨-, e2, -⟩ := pushFront_fields hop
    rw [h0] at e2
    split_ifs at e2 with hc
    · simp [minCapacity] at e2
    · have hal := hI.alloc
      have : q₀.buf.length = 0 := by
        by_contra hne
        exact hal hne e2.symm
      exact hc ⟨by simp [Deque.bufLen, this], e2.symm⟩
  | popFront _ hop ih =>
    exfalso
    obtain ⟨-, e2, -⟩ := popFront_fields hop
    rw [ih (by rw [← e2]; exact h0)] at hop
    simp [Deque.PopFront, zeroValue] at hop
  | popBack _ hop ih =>
    exfalso
    obtain ⟨-, e2, -⟩ := popBack_fields hop
    rw [ih (by rw [← e2]; exact h0)] at hop
    simp [Deque.PopBack, zeroValue] at hop
  | clear hq hop ih =>
    obtain ⟨s, hA⟩ := reachable_abs hq
    obtain ⟨q₁, h1, -, -, hm⟩ := abs_clear hA
    rw [hop] at h1
    injection h1 with h1
    rw [← h1] at hm
    rw [ih (by rw [← hm]; exact h0), zeroValue_clear] at hop
    injection hop with hop
    exact hop.symm
  | rotate n hq hop ih =>
    obtain ⟨s, hA⟩ := reachable_abs hq
    obtain ⟨q₁, h1, -, -, hm⟩ := abs_rotate hA n
    rw [hop] at h1
    injection h1 with h1
    rw [← h1] at hm
    rw [ih (by rw [← hm]; exact h0)] at hop
    simp only [Deque.Rotate, zeroValue] at hop
    rw [if_pos (by decide)] at hop
    injection hop with hop
    exact hop.symm
  | setMinCapacity e _ _ => exact absurd h0 (setMinCapacity_minCap_ne _ e)

/-- A reachable non-empty deque holds a sequence with a first and a last
element. -/
theorem nonempty_split {q : Deque α} (hR : Reachable q) (hne : 1 ≤ q.Len) :
    ∃ (x y : Option α) (t u : List (Option α)), Abs q (x :: t) ∧ Abs q (u ++ [y]) ∧
      q.Len - 1 = ((u.length : Nat) : Int) := by
  obtain ⟨s, hA⟩ := reachable_abs hR
  have hcount : q.count = (s.length : Int) := hA.2.1
  have hpos : 0 < s.length := by simp only [Deque.Len] at hne; omega
  obtain ⟨x, t, hxt⟩ : ∃ x t, s = x :: t := by
    cases s with
    | nil => simp at hpos
    | cons x t => exact ⟨x, t, rfl⟩
  obtain ⟨u, y, huy⟩ : ∃ u y, s = u ++ [y] := by
    rcases List.eq_nil_or_concat s with h | ⟨u, y, h⟩
    · rw [h] at hpos; simp at hpos
    · exact ⟨u, y, by rw [h, List.concat_eq_append]⟩
  refine ⟨x, y, t, u, hxt ▸ hA, huy ▸ hA, ?_⟩
  simp only [Deque.Len, hcount, huy, List.length_append, List.length_singleton]
  omega

end Fields

/-! ## Peeking, capacity and the resize policy -/

section CapacityClaims

variable {α : Type}

/-- C11 (peek agrees with index and with pop): on a reachable non-empty deque
Front() returns the value of At(0), which is the value PopFront() returns, and
Back() returns the value of At(Len()-1), which is the value PopBack() returns.
Front, Back and At assign to nothing: they are functions of the receiver and
yield no new state. -/
theorem peek_agrees (q : Deque α) (hR : Reachable q) (hne : 1 ≤ q.Len) :
    ∃ x y, q.Front = .ok x ∧ q.At 0 = .ok x ∧ (∃ q', q.PopFront = .ok (x, q')) ∧
      q.Back = .ok y ∧ q.At (q.Len - 1) = .ok y ∧ (∃ q', q.PopBack = .ok (y, q')) := by
  obtain ⟨x, y, t, u, hAx, hAy, hlen⟩ := nonempty_split hR hne
  obtain ⟨q₁, hp1, -⟩ := abs_popFront hAx
  obtain ⟨q₂, hp2, -⟩ := abs_popBack hAy
  refine ⟨x, y, abs_front hAx, ?_, ⟨q₁, hp1⟩, abs_back hAy, ?_, ⟨q₂, hp2⟩⟩
  · have := abs_at hAx 0 (by simp)
    simpa using this
  · have h1 := abs_at hAy u.length (by simp)
    rw [hlen, h1]
    simp

/-- Witness of C11: the deque holding 1, 2, 3. -/
theorem peek_agrees_witness :
    Reachable sample3 ∧ 1 ≤ sample3.Len ∧
      ∃ x y, sample3.Front = .ok x ∧ sample3.At 0 = .ok x ∧
        (∃ q', sample3.PopFront = .ok (x, q')) ∧
        sample3.Back = .ok y ∧ sample3.At (sample3.Len - 1) = .ok y ∧
        (∃ q', sample3.PopBack = .ok (y, q')) :=
  ⟨sample3_reachable, by decide, peek_agrees sample3 sample3_reachable (by decide)⟩

/-- C12 (capacity invariant): in every reachable state the length of the
buffer is 0 or a power of two, and the count lies between 0 and that length. -/
theorem capacity_invariant (q : Deque α) (hR : Reachable q) :
    (q.bufLen = 0 ∨ ∃ k : Nat, q.bufLen = 2 ^ k) ∧ 0 ≤ q.count ∧ q.count ≤ q.bufLen := by
  obtain ⟨s, hI, -, -⟩ := reachable_abs hR
  refine ⟨?_, hI.count_nonneg, hI.count_le⟩
  rcases hI.cap with h0 | ⟨k, -, hk⟩
  · left; simp [Deque.bufLen, h0]
  · right; exact ⟨k, by simp [Deque.bufLen, hk]⟩

/-- Witness of C12: nine elements in a buffer of 32 slots. -/
theorem capacity_invariant_witness :
    Reachable sample9 ∧ sample9.bufLen = 2 ^ 5 ∧
      ((sample9.bufLen = 0 ∨ ∃ k : Nat, sample9.bufLen = 2 ^ k) ∧ 0 ≤ sample9.count ∧
        sample9.count ≤ sample9.bufLen) :=
  ⟨sample9_reachable, by decide, capacity_invariant sample9 sample9_reachable⟩

/-- C13 (capacity never shrinks below the minimum): on a reachable deque a
PopFront or PopBack that leaves a shorter buffer keeps the minimum capacity
and leaves a buffer at least that long, and no other call shortens the buffer;
and after PushBack of minCapacity = 16 elements on the zero value the buffer
has 16 slots, the 16 pops return, and every state reached by pops alone still
has 16 slots. -/
theorem shrink_respects_minCap (q : Deque α) (hR : Reachable q) :
    (∀ v q', q.PopFront = .ok (v, q') → q'.bufLen < q.bufLen →
        q'.minCap = q.minCap ∧ q'.minCap ≤ q'.bufLen) ∧
    (∀ v q', q.PopBack = .ok (v, q') → q'.bufLen < q.bufLen →
        q'.minCap = q.minCap ∧ q'.minCap ≤ q'.bufLen) ∧
    ((∀ v q', q.PushBack v = .ok q' → q.bufLen ≤ q'.bufLen) ∧
      (∀ v q', q.PushFront v = .ok q' → q.bufLen ≤ q'.bufLen) ∧
      (∀ q', q.Clear = .ok q' → q'.bufLen = q.bufLen) ∧
      (∀ n q', q.Rotate n = .ok q' → q'.bufLen = q.bufLen) ∧
      (∀ e, (q.SetMinCapacity e).bufLen = q.bufLen)) ∧
    ∀ xs : List (Option α), (xs.length : Int) = minCapacity →
      ∃ q₀ q₂, pushBackAll zeroValue xs = .ok q₀ ∧ q₀.bufLen = minCapacity ∧
        popFrontN xs.length q₀ = .ok (xs, q₂) ∧
        ∀ q₁, PopsFrom q₀ q₁ → q₁.bufLen = minCapacity := by
  have hgrow : ∀ q' : Deque α, (q'.buf.length : Int) = (if q.bufLen = 0 then q'.minCap
      else if q.count = q.bufLen then q.bufLen * 2 else q.bufLen) → q.bufLen ≤ q'.bufLen := by
    intro q' e3
    show q.bufLen ≤ (q'.buf.length : Int)
    rw [e3]
    have hb : q.bufLen = (q.buf.length : Int) := rfl
    split_ifs with h0 hf
    · rw [if_pos h0] at e3; omega
    · omega
    · exact le_refl _
  refine ⟨?_, ?_, ⟨?_, ?_, ?_, ?_, ?_⟩, ?_⟩
  · intro v q' hop hlt
    obtain ⟨-, e2, e3⟩ := popFront_fields hop
    exact ⟨e2, by rw [e2]; exact shrunk_ge_minCap hR e3 hlt⟩
  · intro v q' hop hlt
    obtain ⟨-, e2, e3⟩ := popBack_fields hop
    exact ⟨e2, by rw [e2]; exact shrunk_ge_minCap hR e3 hlt⟩
  · intro v q' hop
    exact hgrow q' (pushBack_fields hop).2.2
  · intro v q' hop
    exact hgrow q' (pushFront_fields hop).2.2
  · intro q' hop
    obtain ⟨s, hA⟩ := reachable_abs hR
    obtain ⟨q₁, h1, -, hlen, -⟩ := abs_clear hA
    rw [hop] at h1
    injection h1 with h1
    rw [h1]
    simp only [Deque.bufLen, hlen]
  · intro n q' hop
    obtain ⟨s, hA⟩ := reachable_abs hR
    obtain ⟨q₁, h1, -, hlen, -⟩ := abs_rotate hA n
    rw [hop] at h1
    injection h1 with h1
    rw [h1]
    simp only [Deque.bufLen, hlen]
  · intro e
    unfold Deque.SetMinCapacity
    split_ifs <;> rfl
  · intro xs hxs
    simp only [minCapacity] at hxs ⊢
    have hne : xs ≠ [] := by intro h; rw [h] at hxs; simp at hxs
    obtain ⟨q₀, h1, hA, hJ⟩ := pushBackAll_sixteen xs (zeroValue : Deque α) [] abs_zero
      (Or.inl ⟨rfl, rfl⟩) (by simp; omega)
    rw [List.nil_append] at hA
    obtain ⟨h16, hm16⟩ : q₀.bufLen = 16 ∧ q₀.minCap = 16 := by
      rcases hJ with h | h
      · exact absurd h hne
      · exact h
    obtain ⟨q₂, h2, -⟩ := popFrontN_abs xs.length q₀ xs hA (le_refl _)
    rw [List.take_length] at h2
    refine ⟨q₀, q₂, h1, h16, h2, ?_⟩
    intro q₁ hp
    rw [(popsFrom_keeps hp (by rw [h16, hm16])).1, h16]

/-- Witness of C13: PopFront on nine elements in 32 slots leaves eight, halves
the buffer to 16 slots, and 16 is the minimum capacity. -/
theorem shrink_respects_minCap_witness :
    Reachable sample9 ∧ sample9.PopFront = .ok (some 9, sample8) ∧
      sample8.bufLen < sample9.bufLen ∧ sample8.minCap = sample9.minCap ∧
      sample8.minCap ≤ sample8.bufLen :=
  ⟨sample9_reachable, sample8_popped, by decide,
    (shrink_respects_minCap sample9 sample9_reachable).1 (some 9) sample8 sample8_popped
      (by decide)⟩

/-- C14 (Clear empties but keeps capacity): on a reachable deque Clear()
returns and leaves Len() = 0 and the same buffer length; when that length is
positive, a PushBack(v) right after it returns with the buffer length still
the same, Len() = 1 and Front() = Back() = v. -/
theorem clear_keeps_capacity (q : Deque α) (hR : Reachable q) :
    ∃ q', q.Clear = .ok q' ∧ q'.Len = 0 ∧ q'.bufLen = q.bufLen ∧
      (0 < q.bufLen → ∀ v : Option α, ∃ q'', q'.PushBack v = .ok q'' ∧
        q''.bufLen = q.bufLen ∧ q''.Len = 1 ∧ q''.Front = .ok v ∧ q''.Back = .ok v) := by
  obtain ⟨s, hA⟩ := reachable_abs hR
  obtain ⟨q', h1, hA', hlen, -⟩ := abs_clear hA
  have hcount : q'.count = 0 := by simpa using hA'.2.1
  have hbl : q'.bufLen = q.bufLen := by simp only [Deque.bufLen, hlen]
  refine ⟨q', h1, hcount, hbl, ?_⟩
  intro hpos v
  obtain ⟨q'', h2, hA''⟩ := abs_pushBack hA' (fun h => absurd h (by rw [hbl]; omega)) v
  obtain ⟨-, -, e3⟩ := pushBack_fields h2
  rw [if_neg (by rw [hbl]; omega), if_neg (by rw [hbl, hcount]; omega), hbl] at e3
  refine ⟨q'', h2, e3, by simpa [Deque.Len] using hA''.2.1, ?_, ?_⟩
  · rw [List.nil_append] at hA''
    exact abs_front hA''
  · exact abs_back hA''

/-- Witness of C14: Clear on the deque holding 1, 2, 3, then PushBack. -/
theorem clear_keeps_capacity_witness :
    Reachable sample3 ∧ sample3.Clear = .ok ⟨List.replicate 16 none, 0, 0, 0, 16⟩ ∧
      ∃ q', sample3.Clear = .ok q' ∧ q'.Len = 0 ∧ q'.bufLen = sample3.bufLen ∧
        (0 < sample3.bufLen → ∀ v : Option Nat, ∃ q'', q'.PushBack v = .ok q'' ∧
          q''.bufLen = sample3.bufLen ∧ q''.Len = 1 ∧ q''.Front = .ok v ∧
          q''.Back = .ok v) :=
  ⟨sample3_reachable, by rfl, clear_keeps_capacity sample3 sample3_reachable⟩

/-- C15, the code at the failing input: the deque after PushBack of 1 .. 16 on
the zero value is reachable, holds 1 .. 16 and fills its 16 slots, so head and
tail coincide; the loop of Clear then runs no iteration, and Clear() returns
with head = tail = count = 0 and all sixteen values still in the buffer. -/
theorem clear_full_buffer :
    Reachable sample16 ∧ IsSeq sample16 sixteen ∧ sample16.count = sample16.bufLen ∧
      sample16.Clear = .ok ⟨sixteen, 0, 0, 0, 16⟩ ∧
      (∀ i : Nat, i < 16 → sixteen[i]? ≠ some none) :=
  ⟨sample16_reachable, abs_isSeq sample16_abs, by decide, by rfl, by decide⟩

/-- What holds of Clear in place of C15: on a reachable deque with at least one
free slot, Clear() returns with head = tail = count = 0 and every slot that
held a live element, slot (head + i) mod len(buf) for i < Len(), holds nil. -/
theorem clear_wipes_when_not_full (q : Deque α) (hR : Reachable q)
    (hroom : q.count < q.bufLen) :
    ∃ q', q.Clear = .ok q' ∧ q'.head = 0 ∧ q'.tail = 0 ∧ q'.count = 0 ∧
      ∀ i : Nat, (i : Int) < q.Len →
        q'.buf[((q.head + (i : Int)) % q.bufLen).toNat]? = some none := by
  obtain ⟨s, hA⟩ := reachable_abs hR
  have hcount : q.count = (s.length : Int) := hA.2.1
  have hroom' : s.length < q.buf.length := by
    simp only [Deque.bufLen] at hroom; omega
  obtain ⟨q', h1, e1, e2, e3, h4⟩ := abs_clear_wipes hA hroom'
  refine ⟨q', h1, e1, e2, e3, ?_⟩
  intro i hi
  have hi' : i < s.length := by simp only [Deque.Len] at hi; omega
  obtain ⟨h, hh⟩ := Int.eq_ofNat_of_zero_le hA.1.head_nonneg
  have hlt : h < q.buf.length := by have := hA.1.head_lt; omega
  have := h4 i hi'
  rw [hh, Int.toNat_ofNat] at this
  rw [hh, Deque.bufLen, emod_slot hlt (by omega)]
  exact this

/-- Witness of the statement on Clear with a free slot: the deque holding
1, 2, 3 in 16 slots. -/
theorem clear_wipes_when_not_full_witness :
    Reachable sample3 ∧ sample3.count < sample3.bufLen ∧
      ∃ q', sample3.Clear = .ok q' ∧ q'.head = 0 ∧ q'.tail = 0 ∧ q'.count = 0 ∧
        ∀ i : Nat, (i : Int) < sample3.Len →
          q'.buf[((sample3.head + (i : Int)) % sample3.bufLen).toNat]? = some none :=
  ⟨sample3_reachable, by decide,
    clear_wipes_when_not_full sample3 sample3_reachable (by decide)⟩

/-- C16, the claim as stated fails: 2^63 and 2^64 are greater than 16, yet
SetMinCapacity(63) and SetMinCapacity(64) set the minimum capacity to 16,
because 1 << 63 is negative and 1 << 64 is 0 at type int. -/
theorem setMinCapacity_shift_overflow :
    (2 : Int) ^ 63 > minCapacity ∧ shlOne 63 = -(2 ^ 63) ∧
      ((zeroValue : Deque Nat).SetMinCapacity 63).minCap = 16 ∧
      (2 : Int) ^ 64 > minCapacity ∧ shlOne 64 = 0 ∧
      ((zeroValue : Deque Nat).SetMinCapacity 64).minCap = 16 := by
  refine ⟨by decide, by decide, by decide, by decide, by decide, by decide⟩

/-- C16 as amended (SetMinCapacity result): for every deque state and every
value e of the exponent, SetMinCapacity(e) leaves buffer, head, tail and count
unchanged; and for e ≤ 62, the exponents whose power 2^e is a value of type
int, the minimum capacity afterwards is 2^e when 2^e > 16 and 16 otherwise. -/
theorem setMinCapacity_result (q : Deque α) (e : Nat) :
    (e ≤ 62 → (q.SetMinCapacity e).minCap =
        (if (2 : Int) ^ e > minCapacity then 2 ^ e else minCapacity)) ∧
      (q.SetMinCapacity e).buf = q.buf ∧ (q.SetMinCapacity e).head = q.head ∧
      (q.SetMinCapacity e).tail = q.tail ∧ (q.SetMinCapacity e).count = q.count := by
  refine ⟨?_, ?_⟩
  · intro he
    unfold Deque.SetMinCapacity
    rw [shlOne_small he]
    split_ifs <;> rfl
  · unfold Deque.SetMinCapacity
    split_ifs <;> exact ⟨rfl, rfl, rfl, rfl⟩

/-- Witness of C16 as amended: SetMinCapacity(5) on the deque holding 1, 2, 3
sets the minimum capacity to 32. -/
theorem setMinCapacity_result_witness :
    (5 : Nat) ≤ 62 ∧ (sample3.SetMinCapacity 5).minCap = 32 ∧
      (sample3.SetMinCapacity 5).minCap =
        (if (2 : Int) ^ 5 > minCapacity then 2 ^ 5 else minCapacity) ∧
      (sample3.SetMinCapacity 5).buf = sample3.buf :=
  ⟨by decide, by decide, (setMinCapacity_result sample3 5).1 (by decide),
    (setMinCapacity_result sample3 5).2.1⟩

/-- C17, the claim as stated fails: the zero value is reachable and its
minimum capacity is 0, which is no power of two and is less than 16. -/
theorem zeroValue_minCap_unset :
    Reachable (zeroValue : Deque Nat) ∧ (zeroValue : Deque Nat).minCap = 0 ∧
      ¬ (∃ k : Nat, (zeroValue : Deque Nat).minCap = 2 ^ k ∧
        minCapacity ≤ (zeroValue : Deque Nat).minCap) := by
  refine ⟨Reachable.zero, rfl, ?_⟩
  rintro ⟨k, -, h⟩
  exact absurd h (by decide)

/-- C17 as amended (minimum-capacity invariant): in every reachable state other
than the zero value itself, where the setting is still 0, the minimum capacity
is a power of two and at least 16. -/
theorem minCap_invariant (q : Deque α) (hR : Reachable q) (hne : q ≠ zeroValue) :
    ∃ k : Nat, q.minCap = 2 ^ k ∧ minCapacity ≤ q.minCap := by
  obtain ⟨s, hI, -, -⟩ := reachable_abs hR
  rcases hI.minCap_pow with h0 | ⟨k, hk, hm⟩
  · exact absurd (reachable_minCap_zero hR h0) hne
  · refine ⟨k, hm, ?_⟩
    rw [hm]
    have : (2 : Int) ^ 4 ≤ 2 ^ k := pow_le_pow_right₀ (by norm_num) hk
    simp only [minCapacity]
    norm_num at this
    exact this

/-- Witness of C17 as amended: the deque holding 1, 2, 3, of minimum capacity
16. -/
theorem minCap_invariant_witness :
    Reachable sample3 ∧ sample3 ≠ zeroValue ∧ sample3.minCap = 2 ^ 4 ∧
      ∃ k : Nat, sample3.minCap = 2 ^ k ∧ minCapacity ≤ sample3.minCap :=
  ⟨sample3_reachable, by decide, by decide,
    minCap_invariant sample3 sample3_reachable (by decide)⟩

/-- C18, the claim as stated fails: the zero value after SetMinCapacity(62) is
reachable with buffer length C = 0 and minimum capacity 2^62, above
maxSliceLen = 2^44; PushBack and PushFront panic in make (makeslice: len out
of range) and the buffer length stays 0 instead of becoming the minimum
capacity. -/
theorem grow_oversized_minCap :
    (zeroValue : Deque Nat).SetMinCapacity 62 = sampleBig ∧ Reachable sampleBig ∧
      sampleBig.bufLen = 0 ∧ sampleBig.minCap = 2 ^ 62 ∧ maxSliceLen < sampleBig.minCap ∧
      sampleBig.PushBack (some 1) = .error (Fault.runtime, sampleBig) ∧
      sampleBig.PushFront (some 1) = .error (Fault.runtime, sampleBig) ∧
      sampleBig.bufLen ≠ sampleBig.minCap :=
  ⟨sampleBig_set, sampleBig_reachable, by decide, by decide, by decide,
    pushBack_unfit (some 1) (by decide) (by decide),
    pushFront_unfit (some 1) (by decide) (by decide), by decide⟩

/-- C18 as amended (grow policy): on a reachable deque with buffer length C
that has a buffer already, or whose minimum capacity is at most the largest
length make accepts (maxSliceLen = 2^44 slots), PushBack and PushFront return
and leave a buffer whose length is the minimum capacity when C = 0 (16 when
none was set, the value set by SetMinCapacity otherwise), 2 * C when C > 0 and
Len() = C, and C in every other case. -/
theorem grow_policy (q : Deque α) (v : Option α) (hR : Reachable q)
    (hfit : q.bufLen = 0 → q.minCap ≤ maxSliceLen) :
    (∃ q', q.PushBack v = .ok q' ∧
      q'.bufLen = (if q.bufLen = 0 then (if q.minCap = 0 then minCapacity else q.minCap)
        else if q.Len = q.bufLen then 2 * q.bufLen else q.bufLen)) ∧
    (∃ q', q.PushFront v = .ok q' ∧
      q'.bufLen = (if q.bufLen = 0 then (if q.minCap = 0 then minCapacity else q.minCap)
        else if q.Len = q.bufLen then 2 * q.bufLen else q.bufLen)) := by
  obtain ⟨s, hA⟩ := reachable_abs hR
  have key : ∀ q' : Deque α,
      q'.minCap = (if q.bufLen = 0 ∧ q.minCap = 0 then minCapacity else q.minCap) →
      (q'.buf.length : Int) = (if q.bufLen = 0 then q'.minCap
        else if q.count = q.bufLen then q.bufLen * 2 else q.bufLen) →
      q'.bufLen = (if q.bufLen = 0 then (if q.minCap = 0 then minCapacity else q.minCap)
        else if q.Len = q.bufLen then 2 * q.bufLen else q.bufLen) := by
    intro q' e2 e3
    simp only [Deque.Len]
    show (q'.buf.length : Int) = _
    rw [e3, e2]
    by_cases h0 : q.bufLen = 0
    · by_cases hm : q.minCap = 0 <;> simp [h0, hm]
    · by_cases hf : q.count = q.bufLen
      · simp only [h0, hf, if_false, if_true]; omega
      · simp only [h0, hf, if_false]
  constructor
  · obtain ⟨q', h1, -⟩ := abs_pushBack hA hfit v
    obtain ⟨-, e2, e3⟩ := pushBack_fields h1
    exact ⟨q', h1, key q' e2 e3⟩
  · obtain ⟨q', h1, -⟩ := abs_pushFront hA hfit v
    obtain ⟨-, e2, e3⟩ := pushFront_fields h1
    exact ⟨q', h1, key q' e2 e3⟩

/-- Witness of C18 as amended: PushBack(17) on the full buffer of 16 slots
doubles it to 32 slots. -/
theorem grow_policy_witness :
    Reachable sample16 ∧ sample16.Len = sample16.bufLen ∧
      (sample16.bufLen = 0 → sample16.minCap ≤ maxSliceLen) ∧
      sample16.PushBack (some 17) = .ok sample17 ∧ sample17.bufLen = 32 ∧
      ((∃ q', sample16.PushBack (some 17) = .ok q' ∧
        q'.bufLen = (if sample16.bufLen = 0 then
            (if sample16.minCap = 0 then minCapacity else sample16.minCap)
          else if sample16.Len = sample16.bufLen then 2 * sample16.bufLen
          else sample16.bufLen)) ∧
      (∃ q', sample16.PushFront (some 17) = .ok q' ∧
        q'.bufLen = (if sample16.bufLen = 0 then
            (if sample16.minCap = 0 then minCapacity else sample16.minCap)
          else if sample16.Len = sample16.bufLen then 2 * sample16.bufLen
          else sample16.bufLen))) :=
  ⟨sample16_reachable, by decide, by decide, by rfl, by decide,
    grow_policy sample16 (some 17) sample16_reachable (by decide)⟩

/-- C19 (shrink policy): on a reachable non-empty deque with buffer length C
and minimum capacity m, PopFront and PopBack return and leave k = Len() - 1
elements in a buffer of length C / 2 when C > m and 4 * k = C, and of length
C otherwise; in particular the buffer is not shortened when 4 * k < C. -/
theorem shrink_policy (q : Deque α) (hR : Reachable q) (hne : 1 ≤ q.Len) :
    (∃ v q', q.PopFront = .ok (v, q') ∧ q'.Len = q.Len - 1 ∧
      q'.bufLen = (if q.bufLen > q.minCap ∧ 4 * q'.Len = q.bufLen then q.bufLen / 2
        else q.bufLen) ∧
      (4 * q'.Len < q.bufLen → q'.bufLen = q.bufLen)) ∧
    (∃ v q', q.PopBack = .ok (v, q') ∧ q'.Len = q.Len - 1 ∧
      q'.bufLen = (if q.bufLen > q.minCap ∧ 4 * q'.Len = q.bufLen then q.bufLen / 2
        else q.bufLen) ∧
      (4 * q'.Len < q.bufLen → q'.bufLen = q.bufLen)) := by
  obtain ⟨x, y, t, u, hAx, hAy, -⟩ := nonempty_split hR hne
  obtain ⟨q₁, hp1, -⟩ := abs_popFront hAx
  obtain ⟨q₂, hp2, -⟩ := abs_popBack hAy
  have key : ∀ q' : Deque α, q'.count = q.count - 1 →
      (q'.buf.length : Int) = (if q.bufLen > q.minCap ∧ (q.count - 1) * 4 = q.bufLen
        then (q.count - 1) * 2 else q.bufLen) →
      q'.Len = q.Len - 1 ∧
      q'.bufLen = (if q.bufLen > q.minCap ∧ 4 * q'.Len = q.bufLen then q.bufLen / 2
        else q.bufLen) ∧
      (4 * q'.Len < q.bufLen → q'.bufLen = q.bufLen) := by
    intro q' e1 e3
    have hb : q'.bufLen = (q'.buf.length : Int) := rfl
    simp only [Deque.Len, e1, hb, e3]
    refine ⟨trivial, ?_, ?_⟩
    · by_cases hc : q.bufLen > q.minCap ∧ (q.count - 1) * 4 = q.bufLen
      · rw [if_pos hc, if_pos ⟨hc.1, by omega⟩]; omega
      · rw [if_neg hc, if_neg (by intro h; exact hc ⟨h.1, by omega⟩)]
    · intro hlt
      rw [if_neg (by intro h; omega)]
  exact ⟨⟨x, q₁, hp1, key q₁ (popFront_fields hp1).1 (popFront_fields hp1).2.2⟩,
    ⟨y, q₂, hp2, key q₂ (popBack_fields hp2).1 (popBack_fields hp2).2.2⟩⟩

/-- Witness of C19: PopFront on nine elements in 32 slots leaves eight, a
quarter of 32, and halves the buffer to 16 slots. -/
theorem shrink_policy_witness :
    Reachable sample9 ∧ 1 ≤ sample9.Len ∧ sample9.PopFront = .ok (some 9, sample8) ∧
      sample9.bufLen = 32 ∧ sample8.bufLen = 16 ∧
      ((∃ v q', sample9.PopFront = .ok (v, q') ∧ q'.Len = sample9.Len - 1 ∧
        q'.bufLen = (if sample9.bufLen > sample9.minCap ∧ 4 * q'.Len = sample9.bufLen
          then sample9.bufLen / 2 else sample9.bufLen) ∧
        (4 * q'.Len < sample9.bufLen → q'.bufLen = sample9.bufLen)) ∧
      (∃ v q', sample9.PopBack = .ok (v, q') ∧ q'.Len = sample9.Len - 1 ∧
        q'.bufLen = (if sample9.bufLen > sample9.minCap ∧ 4 * q'.Len = sample9.bufLen
          then sample9.bufLen / 2 else sample9.bufLen) ∧
        (4 * q'.Len < sample9.bufLen → q'.bufLen = sample9.bufLen))) :=
  ⟨sample9_reachable, by decide, sample8_popped, by decide, by decide,
    shrink_policy sample9 sample9_reachable (by decide)⟩

/-- C20 (Rotate never resizes): on a reachable deque Rotate(n) returns for every
integer n and leaves Len(), the buffer length and the minimum capacity as they
were; when Len() ≤ 1 or n is a multiple of Len() it leaves the whole state as
it was. -/
theorem rotate_never_resizes (q : Deque α) (n : Int) (hR : Reachable q) :
    ∃ q', q.Rotate n = .ok q' ∧ q'.Len = q.Len ∧ q'.bufLen = q.bufLen ∧
      q'.minCap = q.minCap ∧ ((q.Len ≤ 1 ∨ q.Len ∣ n) → q' = q) := by
  obtain ⟨s, hA⟩ := reachable_abs hR
  obtain ⟨q', h1, hA', hlen, hm⟩ := abs_rotate hA n
  have hc : q.count = (s.length : Int) := hA.2.1
  have hc' : q'.count = (s.length : Int) := by
    have := hA'.2.1
    rw [List.length_rotate] at this
    exact this
  refine ⟨q', h1, by simp only [Deque.Len, hc, hc'], by simp only [Deque.bufLen, hlen], hm, ?_⟩
  intro hcase
  have hsame : q.Rotate n = .ok q := by
    by_cases h1 : q.count ≤ 1
    · simp only [Deque.Rotate, h1, if_true]
    · have h0 : Int.tmod n q.count = 0 := by
        rcases hcase with h | h
        · exact absurd h h1
        · exact Int.tmod_eq_zero_of_dvd h
      simp only [Deque.Rotate, h1, if_false, h0, if_true]
  rw [hsame] at h1
  injection h1 with h1
  exact h1.symm

/-- Witness of C20: Rotate(1) and Rotate(3) on the deque holding 1, 2, 3. -/
theorem rotate_never_resizes_witness :
    Reachable sample3 ∧ sample3.Rotate 3 = .ok sample3 ∧
      (∃ q', sample3.Rotate 1 = .ok q' ∧ q'.Len = sample3.Len ∧
        q'.bufLen = sample3.bufLen ∧ q'.minCap = sample3.minCap ∧
        ((sample3.Len ≤ 1 ∨ sample3.Len ∣ 1) → q' = sample3)) :=
  ⟨sample3_reachable, by rfl, rotate_never_resizes sample3 1 sample3_reachable⟩

end CapacityClaims

end deque
